import Mathlib

/-!
# Verification of the klox core engine

Shallow embedding of the klox bytecode virtual machine, hash table and
string interning code, together with proofs of the behavioural claims.

Modelling conventions:
* Heap object references (C pointers) become allocation indices (`Nat`);
  pointer identity becomes equality of indices.
* The IEEE-754 `double` payload of a `Number` is abstracted by the carrier
  `Int`; only its addition operation is observed by the claims below.
* Machine integers are `Nat` with explicit reduction modulo `2 ^ 32` where
  the C code relies on `uint32_t` wraparound (the FNV-1a hash).
* C functions that mutate through pointers become functions returning the
  updated state; the boolean results are kept.
* Loops whose termination depends on a data structure invariant (the probe
  loops of table.c) take explicit fuel; fuel `capacity` is enough whenever
  the table has an empty slot, which the load-factor invariant guarantees.
-/

set_option maxHeartbeats 1000000

namespace Klox

/-- `Value` from value.h: Nil, Bool, Number, or a heap object reference.
The object variants fold the C `ObjType` tag of the referenced object into
the value, with the reference itself an allocation index. -/
inductive Value where
  | nil
  | bool (b : Bool)
  | number (n : Int)
  | str (id : Nat)
  | function (id : Nat)
  | native (id : Nat)
  | closureV (id : Nat)
  | upvalueV (id : Nat)
  | klass (id : Nat)
  | instanceV (id : Nat)
  | boundMethod (id : Nat)
deriving DecidableEq, Repr

/-- An entry of the open-addressed hash table (table.h): a key (an interned
string reference, `none` for empty slots and tombstones) and a value.
A tombstone is `key = none, value = Bool(true)`; an empty slot is
`key = none, value = nil`. -/
structure Entry where
  key : Option Nat
  value : Value
deriving DecidableEq, Repr

/-- The entry a fresh slot holds. -/
def emptyEntry : Entry := ⟨none, Value.nil⟩

/-- `Table` from table.h. `entries` has length `capacity`. -/
structure Table where
  count : Nat
  capacity : Nat
  entries : List Entry
deriving DecidableEq, Repr

/-- `initTable` from table.c. -/
def initTable : Table := ⟨0, 0, []⟩

/-- Read slot `j` of an entry array (C array indexing). -/
def slotE (entries : List Entry) (j : Nat) : Entry := entries.getD j emptyEntry

/-- Read slot `j` of a table. -/
def Table.slot (t : Table) (j : Nat) : Entry := slotE t.entries j

/-- `findEntry` from table.c, the probing loop.  `fuel` bounds the number of
probes; the C loop always terminates because the load factor keeps an empty
slot in the table, and `capacity` probes visit every slot.  `tombstone`
remembers the first tombstone passed, exactly as the C local does. -/
def findEntryAux (entries : List Entry) (capacity : Nat) (key : Nat) :
    Nat → Nat → Option Nat → Option Nat
  | 0, _, _ => none
  | fuel + 1, index, tombstone =>
    match (slotE entries index).key with
    | none =>
      if (slotE entries index).value = Value.nil then
        some (tombstone.getD index)
      else
        findEntryAux entries capacity key fuel ((index + 1) &&& (capacity - 1))
          (some (tombstone.getD index))
    | some k =>
      if k = key then some index
      else findEntryAux entries capacity key fuel ((index + 1) &&& (capacity - 1)) tombstone

/-- `findEntry` with the C entry point: start at `hash & (capacity - 1)`. -/
def findEntry (hashOf : Nat → Nat) (entries : List Entry) (capacity : Nat)
    (key : Nat) : Option Nat :=
  findEntryAux entries capacity key capacity (hashOf key &&& (capacity - 1)) none

/-- `tableGet` from table.c.  C returns a bool and writes through a pointer;
here the two are an `Option`. -/
def tableGet (hashOf : Nat → Nat) (t : Table) (key : Nat) : Option Value :=
  if t.count = 0 then none
  else
    match findEntry hashOf t.entries t.capacity key with
    | none => none
    | some j =>
      match (t.slot j).key with
      | none => none
      | some _ => some (t.slot j).value

/-- `GROW_CAPACITY` from memory.h. -/
def growCapacity (c : Nat) : Nat := if c < 8 then 8 else c * 2

/-- One iteration of the re-insertion loop of `adjustCapacity`. -/
def adjustStep (hashOf : Nat → Nat) (capacity : Nat) (acc : List Entry × Nat)
    (e : Entry) : List Entry × Nat :=
  match e.key with
  | none => acc
  | some k =>
    match findEntry hashOf acc.1 capacity k with
    | none => acc
    | some j => (acc.1.set j ⟨some k, e.value⟩, acc.2 + 1)

/-- `adjustCapacity` from table.c: allocate a fresh array of empty entries,
re-insert every non-null key, recompute `count` (tombstones are dropped). -/
def adjustCapacity (hashOf : Nat → Nat) (t : Table) (capacity : Nat) : Table :=
  let res := t.entries.foldl (adjustStep hashOf capacity)
    (List.replicate capacity emptyEntry, 0)
  ⟨res.2, capacity, res.1⟩

/-- The insertion phase of `tableSet` (after the capacity check): find the
slot, bump `count` only when a truly empty slot is consumed (`isNewKey`
with a nil value, i.e. not a reused tombstone), write the entry, and return
`isNewKey`. -/
def tableSetBody (hashOf : Nat → Nat) (t : Table) (key : Nat) (value : Value) :
    Bool × Table :=
  match findEntry hashOf t.entries t.capacity key with
  | none => (false, t)
  | some j =>
    ((t.slot j).key.isNone,
      ⟨if (t.slot j).key = none ∧ (t.slot j).value = Value.nil then t.count + 1
        else t.count, t.capacity, t.entries.set j ⟨some key, value⟩⟩)

/-- `tableSet` from table.c.  The load test `count + 1 > capacity * 0.75`
on exact doubles is `4 * (count + 1) > 3 * capacity` on integers. -/
def tableSet (hashOf : Nat → Nat) (t : Table) (key : Nat) (value : Value) :
    Bool × Table :=
  tableSetBody hashOf
    (if 4 * (t.count + 1) > 3 * t.capacity then
      adjustCapacity hashOf t (growCapacity t.capacity) else t) key value

/-- `tableDelete` from table.c: overwrite the found slot with a tombstone;
`count` is not decremented. -/
def tableDelete (hashOf : Nat → Nat) (t : Table) (key : Nat) : Bool × Table :=
  if t.count = 0 then (false, t)
  else
    match findEntry hashOf t.entries t.capacity key with
    | none => (false, t)
    | some j =>
      match (t.slot j).key with
      | none => (false, t)
      | some _ =>
        (true, ⟨t.count, t.capacity, t.entries.set j ⟨none, Value.bool true⟩⟩)

/-- `tableAddAll` from table.c. -/
def tableAddAll (hashOf : Nat → Nat) (src dst : Table) : Table :=
  src.entries.foldl (fun acc e =>
    match e.key with
    | none => acc
    | some k => (tableSet hashOf acc k e.value).2) dst

/-- `hashString` from object.c: FNV-1a-32 over the bytes, on `uint32_t`. -/
def hashString (chars : List Nat) : Nat :=
  chars.foldl (fun h b => ((h ^^^ b % 256) * 16777619) % 4294967296) 2166136261

/-- `tableFindString` from table.c, the content-based probe loop used by the
intern table.  `bytesOf` reads the byte contents of a string object (the C
code dereferences `entry->key`); the stored hash of a string is
`hashString` of its bytes. -/
def tableFindStringAux (bytesOf : Nat → List Nat) (entries : List Entry)
    (capacity : Nat) (chars : List Nat) (hash : Nat) :
    Nat → Nat → Option Nat
  | 0, _ => none
  | fuel + 1, index =>
    match (slotE entries index).key with
    | none =>
      if (slotE entries index).value = Value.nil then none
      else tableFindStringAux bytesOf entries capacity chars hash fuel
        ((index + 1) &&& (capacity - 1))
    | some k =>
      if (bytesOf k).length = chars.length ∧ hashString (bytesOf k) = hash ∧
          bytesOf k = chars then
        some k
      else tableFindStringAux bytesOf entries capacity chars hash fuel
        ((index + 1) &&& (capacity - 1))

/-- `tableFindString` entry point. -/
def tableFindString (bytesOf : Nat → List Nat) (t : Table) (chars : List Nat)
    (hash : Nat) : Option Nat :=
  if t.count = 0 then none
  else tableFindStringAux bytesOf t.entries t.capacity chars hash t.capacity
    (hash &&& (t.capacity - 1))

/-! ### Specification-side notions for the table refinement -/

/-- Is this entry a truly empty slot (key null, value nil)?  Tombstones
(key null, value Bool(true)) are not empty. -/
def Entry.isEmptySlot (e : Entry) : Bool := e.key == none && e.value == Value.nil

/-- Does this entry hold a key? -/
def Entry.isFull (e : Entry) : Bool := e.key.isSome

/-- The linear-probe sequence of key `k`: the i-th probed slot.  With a
power-of-two capacity the C index arithmetic `hash & (cap-1)` followed by
`(index+1) & (cap-1)` walks exactly this sequence. -/
def probe (hashOf : Nat → Nat) (cap k i : Nat) : Nat := (hashOf k + i) % cap

/-- Slot `j` of the entry array is truly empty. -/
def emptyAtE (entries : List Entry) (j : Nat) : Prop :=
  (slotE entries j).key = none ∧ (slotE entries j).value = Value.nil

/-- The fundamental open-addressing invariant: every stored key sits on its
own probe sequence, and the probed slots before it are neither empty nor
hold that key.  This is what makes `findEntry` find stored keys. -/
def ProbeInv (hashOf : Nat → Nat) (entries : List Entry) (cap : Nat) : Prop :=
  ∀ j k, j < cap → (slotE entries j).key = some k →
    ∃ i, i < cap ∧ j = probe hashOf cap k i ∧
      ∀ i' < i, ¬ emptyAtE entries (probe hashOf cap k i') ∧
        (slotE entries (probe hashOf cap k i')).key ≠ some k

/-- Structural part of the table invariant, on a raw entry array. -/
structure RawInv (hashOf : Nat → Nat) (entries : List Entry) (cap : Nat) : Prop where
  len_eq : entries.length = cap
  cap_pow : cap = 0 ∨ ∃ n, cap = 2 ^ n
  probeInv : ProbeInv hashOf entries cap

/-- The representation invariant of table.c tables. -/
structure TableInv (hashOf : Nat → Nat) (t : Table) : Prop where
  raw : RawInv hashOf t.entries t.capacity
  load : 4 * t.count ≤ 3 * t.capacity
  count_eq : t.count = t.entries.countP (fun e => !e.isEmptySlot)

/-- The finite map a table represents: the value stored with key `k`. -/
def absT (t : Table) (k : Nat) : Option Value :=
  (t.entries.find? (fun e => e.key == some k)).map Entry.value

/-- A mutating table operation: `tableSet` or `tableDelete`. -/
inductive TOp where
  | setOp (k : Nat) (v : Value)
  | delOp (k : Nat)
deriving DecidableEq, Repr

/-- Run one table operation on the concrete table. -/
def runTOp (hashOf : Nat → Nat) (t : Table) : TOp → Table
  | .setOp k v => (tableSet hashOf t k v).2
  | .delOp k => (tableDelete hashOf t k).2

/-- Run a sequence of table operations on the concrete table. -/
def runTOps (hashOf : Nat → Nat) (ops : List TOp) (t : Table) : Table :=
  ops.foldl (runTOp hashOf) t

/-- The same operation on the specification-side finite map. -/
def specTOp (m : Nat → Option Value) : TOp → Nat → Option Value
  | .setOp k v => fun k' => if k' = k then some v else m k'
  | .delOp k => fun k' => if k' = k then none else m k'

/-- Run a sequence of operations on the specification-side finite map. -/
def runSpec (ops : List TOp) (m : Nat → Option Value) : Nat → Option Value :=
  ops.foldl specTOp m

/-! ### String interning (object.c) -/

/-- The interning state: the heap of allocated string objects (index is the
reference, content is the byte sequence) and the `vm.strings` table. -/
structure InternSt where
  strs : List (List Nat)
  itable : Table
deriving Repr

/-- The byte contents of string object `id`. -/
def InternSt.bytesOf (st : InternSt) (id : Nat) : List Nat := st.strs.getD id []

/-- The cached hash of string object `id` (object.c stores
`hashString(chars)` in the object). -/
def InternSt.strHash (st : InternSt) : Nat → Nat :=
  fun id => hashString (st.bytesOf id)

/-- `allocateString` from object.c: create the object, then insert it into
the intern table with a nil value.  (The GC rooting push/pop around the
insertion has no observable effect here.) -/
def allocateString (st : InternSt) (chars : List Nat) : Nat × InternSt :=
  let id := st.strs.length
  let st' : InternSt := ⟨st.strs ++ [chars], st.itable⟩
  (id, ⟨st'.strs, (tableSet st'.strHash st.itable id Value.nil).2⟩)

/-- `copyString` from object.c: hash, look up in the intern table, return
the existing object on a hit, else allocate and intern. -/
def copyString (st : InternSt) (chars : List Nat) : Nat × InternSt :=
  match tableFindString st.bytesOf st.itable chars (hashString chars) with
  | some interned => (interned, st)
  | none => allocateString st chars

/-- `takeString` from object.c: identical lookup; on a hit the owned buffer
is freed, which is unobservable in the model. -/
def takeString (st : InternSt) (chars : List Nat) : Nat × InternSt :=
  match tableFindString st.bytesOf st.itable chars (hashString chars) with
  | some interned => (interned, st)
  | none => allocateString st chars

/-- The intern state right after `initTable(&vm.strings)`. -/
def initIntern : InternSt := ⟨[], initTable⟩

/-- The references currently interned (keys of `vm.strings`). -/
def internKeys (st : InternSt) : List Nat :=
  st.itable.entries.filterMap Entry.key

/-- An interning request (the two entry points of object.c). -/
inductive InternOp where
  | copyOp (chars : List Nat)
  | takeOp (chars : List Nat)
deriving Repr

/-- Run a sequence of interning requests. -/
def runIntern (st : InternSt) : List InternOp → InternSt
  | [] => st
  | .copyOp chars :: rest => runIntern (copyString st chars).2 rest
  | .takeOp chars :: rest => runIntern (takeString st chars).2 rest

/-- The interning invariant: the table is well formed under the cached
string hashes, every key references an allocated string object, and no two
interned references have the same bytes. -/
structure InternInv (st : InternSt) : Prop where
  tinv : TableInv st.strHash st.itable
  keys_lt : ∀ e ∈ st.itable.entries, ∀ k, e.key = some k → k < st.strs.length
  uniq : ∀ e1 ∈ st.itable.entries, ∀ e2 ∈ st.itable.entries, ∀ k1 k2,
    e1.key = some k1 → e2.key = some k2 → st.bytesOf k1 = st.bytesOf k2 →
    k1 = k2

/-! ### Runtime errors (vm_support.c runtimeError call sites) -/

/-- Runtime errors raised by the opcodes modelled here.  Payloads carry the
values interpolated into the C format strings. -/
inductive RTErr where
  | operandsMustBeTwoNumbersOrTwoStrings
  | operandMustBeANumber
  | operandsMustBeNumbers
  | undefinedVariable (name : Nat)
  | expectedArgs (expected got : Nat)
  | stackOverflow
  | superclassMustBeAClass
  | canOnlyCallFunctionsAndClasses
deriving DecidableEq, Repr

/-- The formatted C message.  `undefinedVariable` additionally quotes the
name (held as the payload reference) between single quote characters. -/
def RTErr.message : RTErr → String
  | .operandsMustBeTwoNumbersOrTwoStrings =>
      "Operands must be two numbers or two strings."
  | .operandMustBeANumber => "Operand must be a number."
  | .operandsMustBeNumbers => "Operands must be numbers."
  | .undefinedVariable _ => "Undefined variable"
  | .expectedArgs e g =>
      "Expected " ++ toString e ++ " arguments but got " ++ toString g ++ "."
  | .stackOverflow => "Stack overflow."
  | .superclassMustBeAClass => "Superclass must be a class."
  | .canOnlyCallFunctionsAndClasses => "Can only call functions and classes."

/-! ### The value stack -/

/-- `peek(distance)` from vm.h, on a bottom-first stack list (the last
element is the top of the stack). -/
def peekV (stack : List Value) (distance : Nat) : Value :=
  stack.getD (stack.length - 1 - distance) Value.nil

/-! ### OP_SET_GLOBAL (vm.c) -/

/-- VM fragment for the globals opcodes. -/
structure GlobSt where
  globals : Table
  stack : List Value
deriving Repr

/-- The `OP_SET_GLOBAL` case of `run` in vm.c: when `tableSet` reports a
new key the binding did not exist, so the freshly made entry is deleted
again and Undefined variable is raised; on success the operand value stays
on the stack. -/
def opSetGlobal (hashOf : Nat → Nat) (st : GlobSt) (name : Nat) :
    Except (RTErr × GlobSt) GlobSt :=
  let r := tableSet hashOf st.globals name (peekV st.stack 0)
  if r.1 then
    .error (.undefinedVariable name,
      { st with globals := (tableDelete hashOf r.2 name).2 })
  else
    .ok { st with globals := r.2 }

/-! ### OP_ADD and concatenate (vm.c, vm_support.c) -/

/-- VM fragment for `OP_ADD`: the value stack and the interning state. -/
structure AddSt where
  stack : List Value
  intern : InternSt
deriving Repr

def isStringV : Value → Bool
  | .str _ => true
  | _ => false

def isNumberV : Value → Bool
  | .number _ => true
  | _ => false

/-- `AS_NUMBER` (unchecked in C; callers test `IS_NUMBER` first). -/
def asNumber : Value → Int
  | .number n => n
  | _ => 0

/-- `AS_STRING` (unchecked in C; callers test `IS_STRING` first). -/
def asStrId : Value → Nat
  | .str id => id
  | _ => 0

/-- `concatenate` from vm_support.c: read the two operand strings, build
`a.chars ++ b.chars`, intern via `takeString`, pop both operands, push the
result. -/
def concatenate (st : AddSt) : AddSt :=
  let b := asStrId (peekV st.stack 0)
  let a := asStrId (peekV st.stack 1)
  let chars := st.intern.bytesOf a ++ st.intern.bytesOf b
  let r := takeString st.intern chars
  ⟨st.stack.dropLast.dropLast ++ [Value.str r.1], r.2⟩

/-- The `OP_ADD` case of `run` in vm.c: two strings concatenate, two
numbers add, anything else raises the runtime error (then `run` returns
INTERPRET_RUNTIME_ERROR). -/
def opAdd (st : AddSt) : Except RTErr AddSt :=
  if isStringV (peekV st.stack 0) && isStringV (peekV st.stack 1) then
    .ok (concatenate st)
  else if isNumberV (peekV st.stack 0) && isNumberV (peekV st.stack 1) then
    .ok ⟨st.stack.dropLast.dropLast ++
      [Value.number (asNumber (peekV st.stack 1) + asNumber (peekV st.stack 0))],
      st.intern⟩
  else
    .error .operandsMustBeTwoNumbersOrTwoStrings

/-! ### Open upvalues (vm_support.c) -/

/-- An open upvalue: the heap object reference and the stack slot index its
`location` points at.  The VM keeps these in a list sorted by decreasing
slot (the C list is sorted by decreasing stack address). -/
structure OpenUpv where
  uid : Nat
  loc : Nat
deriving DecidableEq, Repr

/-- `captureUpvalue` from vm_support.c: walk while the list node points
above the wanted slot; reuse an exact match; otherwise splice a fresh
upvalue (reference `newId`) in at the sorted position.  Returns the
upvalue handed to the closure and the updated open list. -/
def captureUpvalue (newId : Nat) (localSlot : Nat) :
    List OpenUpv → Nat × List OpenUpv
  | [] => (newId, [⟨newId, localSlot⟩])
  | u :: rest =>
    if localSlot < u.loc then
      ((captureUpvalue newId localSlot rest).1,
        u :: (captureUpvalue newId localSlot rest).2)
    else if u.loc = localSlot then
      (u.uid, u :: rest)
    else
      (newId, ⟨newId, localSlot⟩ :: u :: rest)

/-- `closeUpvalues(last)` from vm_support.c: while the head upvalue watches
a slot at or above `last`, migrate the slot value into the upvalue
(`closed` field) and unlink it.  Returns the remaining open list and the
closed pairs (reference, migrated value). -/
def closeUpvalues (stack : List Value) (last : Nat) :
    List OpenUpv → List OpenUpv × List (Nat × Value)
  | [] => ([], [])
  | u :: rest =>
    if last ≤ u.loc then
      ((closeUpvalues stack last rest).1,
        (u.uid, stack.getD u.loc Value.nil) :: (closeUpvalues stack last rest).2)
    else
      (u :: rest, [])

/-! ### Call frames (vm.h, vm_support.c) -/

/-- `FRAMES_MAX` from vm.h. -/
def FRAMES_MAX : Nat := 64

/-- `UINT8_COUNT` from common.h (UINT8_MAX + 1). -/
def UINT8_COUNT : Nat := 256

/-- A call frame: the running closure, its instruction offset, and the
index of its `slots` base in the value stack. -/
structure Frame where
  closureId : Nat
  ip : Nat
  slots : Nat
deriving DecidableEq, Repr

/-- A closure object (only the arity is observed by these claims). -/
structure ClosObj where
  arity : Nat
deriving DecidableEq, Repr

/-- A class object: name reference and method table. -/
structure ClassObj where
  name : Nat
  methods : Table
deriving DecidableEq, Repr

/-- An instance object: its class and its field table. -/
structure InstObj where
  klassId : Nat
  fields : Table
deriving DecidableEq, Repr

/-- VM fragment for calls and OP_INHERIT. -/
structure CallSt where
  stack : List Value
  frames : List Frame
  classes : List ClassObj
  instances : List InstObj
  closures : List ClosObj
deriving DecidableEq, Repr

/-- Result of `call`/`callValue` (C returns a bool after possibly printing
a runtime error; the error and the state are kept). -/
inductive CallRes where
  | ok (st : CallSt)
  | err (e : RTErr) (st : CallSt)
deriving DecidableEq, Repr

/-- `call` from vm_support.c: arity check, frame-overflow check, then push
a frame with `slots = stackTop - argCount - 1`. -/
def call (st : CallSt) (closId : Nat) (argCount : Nat) : CallRes :=
  if argCount ≠ (st.closures.getD closId ⟨0⟩).arity then
    .err (.expectedArgs (st.closures.getD closId ⟨0⟩).arity argCount) st
  else if st.frames.length = FRAMES_MAX then
    .err .stackOverflow st
  else
    .ok { st with
      frames := st.frames ++ [⟨closId, 0, st.stack.length - argCount - 1⟩] }

/-- `AS_CLOSURE` (unchecked cast in C). -/
def asClosureId : Value → Nat
  | .closureV id => id
  | _ => 0

/-- `AS_CLASS` (unchecked cast in C). -/
def asClassId : Value → Nat
  | .klass id => id
  | _ => 0

/-- The `OBJ_CLASS` case of `callValue` from vm_support.c: overwrite the
callee slot with a fresh instance; call the init method with the same
argument count if the class has one; otherwise require zero arguments.
`initStr` is the interned "init" string reference (`vm.initString`). -/
def callValueClass (hashOf : Nat → Nat) (initStr : Nat) (st : CallSt)
    (klassId argCount : Nat) : CallRes :=
  let instId := st.instances.length
  let st1 : CallSt := { st with
    instances := st.instances ++ [⟨klassId, initTable⟩],
    stack := st.stack.set (st.stack.length - argCount - 1)
      (Value.instanceV instId) }
  match tableGet hashOf (st.classes.getD klassId ⟨0, initTable⟩).methods initStr with
  | some init => call st1 (asClosureId init) argCount
  | none =>
    if argCount ≠ 0 then .err (.expectedArgs 0 argCount) st1
    else .ok st1

/-- The `OP_INHERIT` case of `run` in vm.c: `peek(1)` must be a class,
otherwise a runtime error; on success the superclass methods are copied
into the subclass table (`tableAddAll`) and the subclass is popped. -/
def opInherit (hashOf : Nat → Nat) (st : CallSt) :
    Except (RTErr × CallSt) CallSt :=
  match peekV st.stack 1 with
  | .klass supId =>
    let subId := asClassId (peekV st.stack 0)
    let sub := st.classes.getD subId ⟨0, initTable⟩
    .ok { st with
      classes := st.classes.set subId ⟨sub.name,
        tableAddAll hashOf (st.classes.getD supId ⟨0, initTable⟩).methods
          sub.methods⟩,
      stack := st.stack.dropLast }
  | _ => .error (.superclassMustBeAClass, st)

/-! ### OP_RETURN and OP_GET_LOCAL (vm.c) -/

/-- VM fragment for the return path: stack, frames, open upvalues, and the
record of closed upvalues (reference, migrated value). -/
structure RunSt where
  stack : List Value
  frames : List Frame
  openUps : List OpenUpv
  closedUps : List (Nat × Value)
deriving DecidableEq, Repr

/-- Outcome of `OP_RETURN`: halt the interpreter with INTERPRET_OK, or
continue in the caller frame. -/
inductive RetRes where
  | halt (st : RunSt)
  | next (st : RunSt)
deriving DecidableEq, Repr

/-- The `OP_RETURN` case of `run` in vm.c: pop the result, close every
upvalue at or above the frame base, drop the frame; if it was the last
frame pop the script placeholder and halt with INTERPRET_OK; otherwise
reset the stack top to the frame base and push the result.  (The C `pop`
only moves `stackTop`; `closeUpvalues` still reads the untouched memory,
so the close step reads the original stack.) -/
def opReturn (st : RunSt) : RetRes :=
  let frame := st.frames.getLast?.getD ⟨0, 0, 0⟩
  let result := st.stack.getLast?.getD Value.nil
  let r := closeUpvalues st.stack frame.slots st.openUps
  let frames' := st.frames.dropLast
  if frames'.length = 0 then
    .halt ⟨st.stack.dropLast.dropLast, frames', r.1, st.closedUps ++ r.2⟩
  else
    .next ⟨st.stack.take frame.slots ++ [result], frames', r.1,
      st.closedUps ++ r.2⟩

/-- The `OP_GET_LOCAL` case of `run` in vm.c: push `frame->slots[slot]`. -/
def opGetLocal (st : RunSt) (slot : Nat) : RunSt :=
  let frame := st.frames.getLast?.getD ⟨0, 0, 0⟩
  { st with stack := st.stack ++ [st.stack.getD (frame.slots + slot) Value.nil] }

/-! ### Compiler fragments (compiler.c, parser.c) -/

/-- `FunctionType` from compiler.h. -/
inductive FunctionType where
  | typeScript
  | typeFunction
  | typeMethod
  | typeInit
deriving DecidableEq, Repr

/-- Instruction-level view of emitted bytecode (chunk.h is not in the
sources; opcodes are modelled symbolically with their operands inline). -/
inductive Instr where
  | iGetLocal (slot : Nat)
  | iNil
  | iReturn
deriving DecidableEq, Repr

/-- `emitReturn` from compiler.c: an initializer returns slot 0 (the
receiver); every other function type returns nil. -/
def emitReturn (t : FunctionType) : List Instr :=
  if t = FunctionType.typeInit then [.iGetLocal 0, .iReturn]
  else [.iNil, .iReturn]

/-- The fragment of compiler state that `addLocal` touches: the number of
entries of `locals` and the error flag. -/
structure CompLocals where
  localCount : Nat
  hadError : Bool
deriving DecidableEq, Repr

/-- The locals state right after `initCompiler`: slot 0 is claimed for the
receiver (or an empty name), so `localCount` starts at 1. -/
def initCompilerLocals : CompLocals := ⟨1, false⟩

/-- `addLocal` from parser.c: report "Too many local variables in
function." when the array already has UINT8_COUNT entries, else append. -/
def addLocal (c : CompLocals) : CompLocals :=
  if c.localCount = UINT8_COUNT then { c with hadError := true }
  else { c with localCount := c.localCount + 1 }

end Klox

namespace Klox

/-! ## Sanity checks on concrete tables -/

example : (tableSet (fun n => n) initTable 3 (Value.number 7)).1 = true := by decide

example :
    tableGet (fun n => n) (tableSet (fun n => n) initTable 3 (Value.number 7)).2 3 =
      some (Value.number 7) := by decide

example :
    (tableDelete (fun n => n) (tableSet (fun n => n) initTable 3 (Value.number 7)).2 3).1 =
      true := by decide

example : hashString [] = 2166136261 := by decide

end Klox

namespace Klox

/-! ## Probe arithmetic -/

theorem mask_eq_mod {cap : Nat} (hc : cap = 0 ∨ ∃ n, cap = 2 ^ n)
    (hpos : 0 < cap) (x : Nat) : x &&& (cap - 1) = x % cap := by
  rcases hc with h | ⟨n, rfl⟩
  · omega
  · exact Nat.and_pow_two_sub_one_eq_mod x n

theorem probe_lt {hashOf : Nat → Nat} {cap : Nat} (k i : Nat) (hpos : 0 < cap) :
    probe hashOf cap k i < cap := Nat.mod_lt _ hpos

theorem probe_zero {hashOf : Nat → Nat} {cap : Nat} (k : Nat) :
    probe hashOf cap k 0 = hashOf k % cap := by simp [probe]

theorem probe_succ {hashOf : Nat → Nat} {cap : Nat} (k i : Nat) :
    (probe hashOf cap k i + 1) % cap = probe hashOf cap k (i + 1) := by
  simp [probe, Nat.mod_add_mod, Nat.add_assoc]

theorem probe_inj {hashOf : Nat → Nat} {cap k : Nat} (hpos : 0 < cap) {i j : Nat}
    (hi : i < cap) (hj : j < cap)
    (h : probe hashOf cap k i = probe hashOf cap k j) : i = j := by
  have hmod : i % cap = j % cap :=
    Nat.ModEq.add_left_cancel' (hashOf k) h
  rwa [Nat.mod_eq_of_lt hi, Nat.mod_eq_of_lt hj] at hmod

theorem probe_surj {hashOf : Nat → Nat} {cap : Nat} (k : Nat) (hpos : 0 < cap)
    (j : Nat) (hj : j < cap) : ∃ i, i < cap ∧ probe hashOf cap k i = j := by
  refine ⟨(cap + j - hashOf k % cap) % cap, Nat.mod_lt _ hpos, ?_⟩
  have hr : hashOf k % cap < cap := Nat.mod_lt _ hpos
  have hdm := Nat.div_add_mod (hashOf k) cap
  unfold probe
  rw [Nat.add_mod_mod]
  have hx : hashOf k + (cap + j - hashOf k % cap) =
      cap * (hashOf k / cap) + (cap + j) := by omega
  rw [hx, Nat.mul_add_mod, Nat.add_mod_left, Nat.mod_eq_of_lt hj]

end Klox

namespace Klox

/-! ## Single-step behaviour of the probe loop -/

theorem findEntryAux_step_empty {entries : List Entry} {cap key fuel idx : Nat}
    {ts : Option Nat} (hk : (slotE entries idx).key = none)
    (hv : (slotE entries idx).value = Value.nil) :
    findEntryAux entries cap key (fuel + 1) idx ts = some (ts.getD idx) := by
  simp only [findEntryAux, hk, hv, if_pos]

theorem findEntryAux_step_tomb {entries : List Entry} {cap key fuel idx : Nat}
    {ts : Option Nat} (hk : (slotE entries idx).key = none)
    (hv : (slotE entries idx).value ≠ Value.nil) :
    findEntryAux entries cap key (fuel + 1) idx ts =
      findEntryAux entries cap key fuel ((idx + 1) &&& (cap - 1))
        (some (ts.getD idx)) := by
  simp only [findEntryAux, hk, hv, if_neg, ite_false]

theorem findEntryAux_step_full {entries : List Entry} {cap key fuel idx k : Nat}
    {ts : Option Nat} (hk : (slotE entries idx).key = some k) :
    findEntryAux entries cap key (fuel + 1) idx ts =
      if k = key then some idx
      else findEntryAux entries cap key fuel ((idx + 1) &&& (cap - 1)) ts := by
  simp only [findEntryAux, hk]

end Klox

namespace Klox

/-! ## What the probe loop returns -/

/-- Whatever `findEntryAux` returns is either the slot holding the key or a
key-free slot (empty or tombstone); it never returns a slot that holds a
different key. -/
theorem findEntryAux_shape (entries : List Entry) (cap k : Nat) :
    ∀ fuel idx ts jr,
      (∀ tj, ts = some tj → (slotE entries tj).key = none) →
      findEntryAux entries cap k fuel idx ts = some jr →
      (slotE entries jr).key = some k ∨ (slotE entries jr).key = none := by
  intro fuel
  induction fuel with
  | zero => intro idx ts jr _ h; simp [findEntryAux] at h
  | succ f ih =>
    intro idx ts jr hts h
    rcases hk : (slotE entries idx).key with _ | k''
    · by_cases hv : (slotE entries idx).value = Value.nil
      · rw [findEntryAux_step_empty hk hv] at h
        cases hj : ts with
        | none =>
          subst hj; simp only [Option.getD_none, Option.some.injEq] at h
          right; rw [← h]; exact hk
        | some tj =>
          subst hj; simp only [Option.getD_some, Option.some.injEq] at h
          right; rw [← h]; exact hts tj rfl
      · rw [findEntryAux_step_tomb hk hv] at h
        refine ih _ _ _ ?_ h
        intro tj htj
        cases hj : ts with
        | none =>
          subst hj; simp only [Option.getD_none, Option.some.injEq] at htj
          rw [← htj]; exact hk
        | some t0 =>
          subst hj; simp only [Option.getD_some, Option.some.injEq] at htj
          rw [← htj]; exact hts t0 rfl
    · rw [findEntryAux_step_full hk] at h
      by_cases hkk : k'' = k
      · rw [if_pos hkk] at h
        left
        cases h
        rw [hk, hkk]
      · rw [if_neg hkk] at h
        exact ih _ _ _ hts h

/-- If the key is stored at probe index `ik` and the probed slots before it
are neither empty nor hold the key, the loop returns exactly that slot. -/
theorem findEntryAux_present {hashOf : Nat → Nat} {entries : List Entry}
    {cap : Nat} (hc : cap = 0 ∨ ∃ n, cap = 2 ^ n) {k ik : Nat} (hik : ik < cap)
    (hkey : (slotE entries (probe hashOf cap k ik)).key = some k)
    (hpref : ∀ i' < ik, ¬ emptyAtE entries (probe hashOf cap k i') ∧
      (slotE entries (probe hashOf cap k i')).key ≠ some k) :
    ∀ fuel m ts, m ≤ ik → ik - m < fuel →
      findEntryAux entries cap k fuel (probe hashOf cap k m) ts =
        some (probe hashOf cap k ik) := by
  have hpos : 0 < cap := by omega
  intro fuel
  induction fuel with
  | zero => intro m ts _ h; omega
  | succ f ih =>
    intro m ts hm hfuel
    rcases Nat.lt_or_ge m ik with hlt | hge
    · obtain ⟨hne, hnk⟩ := hpref m hlt
      rcases hk : (slotE entries (probe hashOf cap k m)).key with _ | k''
      · have hv : (slotE entries (probe hashOf cap k m)).value ≠ Value.nil := by
          intro hv; exact hne ⟨hk, hv⟩
        rw [findEntryAux_step_tomb hk hv, mask_eq_mod hc hpos, probe_succ]
        exact ih (m + 1) _ (by omega) (by omega)
      · have hkk : k'' ≠ k := by intro h; rw [h] at hk; exact hnk hk
        rw [findEntryAux_step_full hk, if_neg hkk, mask_eq_mod hc hpos, probe_succ]
        exact ih (m + 1) ts (by omega) (by omega)
    · have hm' : m = ik := by omega
      subst hm'
      rw [findEntryAux_step_full hkey, if_pos rfl]

/-- If the key is stored nowhere and probe index `ie` is the first empty
slot on its probe sequence, the loop returns a key-free slot on the probe
sequence (the first tombstone, or that empty slot). -/
theorem findEntryAux_fresh {hashOf : Nat → Nat} {entries : List Entry}
    {cap : Nat} (hc : cap = 0 ∨ ∃ n, cap = 2 ^ n) {k ie : Nat} (hie : ie < cap)
    (hempty : emptyAtE entries (probe hashOf cap k ie))
    (hpref : ∀ i' < ie, ¬ emptyAtE entries (probe hashOf cap k i'))
    (habs : ∀ j, (slotE entries j).key ≠ some k) :
    ∀ fuel m ts, m ≤ ie → ie - m < fuel →
      (ts = none ∨ ∃ mt, mt < m ∧ ts = some (probe hashOf cap k mt) ∧
        (slotE entries (probe hashOf cap k mt)).key = none) →
      ∃ ir, ir ≤ ie ∧
        findEntryAux entries cap k fuel (probe hashOf cap k m) ts =
          some (probe hashOf cap k ir) ∧
        (slotE entries (probe hashOf cap k ir)).key = none := by
  have hpos : 0 < cap := by omega
  intro fuel
  induction fuel with
  | zero => intro m ts _ h; omega
  | succ f ih =>
    intro m ts hm hfuel hts
    rcases hk : (slotE entries (probe hashOf cap k m)).key with _ | k''
    · by_cases hv : (slotE entries (probe hashOf cap k m)).value = Value.nil
      · -- empty slot reached: return the remembered tombstone or this slot
        rw [findEntryAux_step_empty hk hv]
        rcases hts with rfl | ⟨mt, hmt, rfl, hmtk⟩
        · exact ⟨m, hm, rfl, hk⟩
        · exact ⟨mt, by omega, rfl, hmtk⟩
      · -- tombstone: keep walking, remembering the first tombstone
        have hmie : m < ie := by
          rcases Nat.lt_or_ge m ie with h | h
          · exact h
          · have : m = ie := by omega
            subst this
            exact absurd hempty.2 hv
        rw [findEntryAux_step_tomb hk hv, mask_eq_mod hc hpos, probe_succ]
        refine ih (m + 1) _ (by omega) (by omega) ?_
        right
        rcases hts with rfl | ⟨mt, hmt, rfl, hmtk⟩
        · exact ⟨m, by omega, rfl, hk⟩
        · exact ⟨mt, by omega, rfl, hmtk⟩
    · -- full slot: cannot be our key, keep walking
      have hkk : k'' ≠ k := by
        intro h; rw [h] at hk; exact habs _ hk
      have hmie : m < ie := by
        rcases Nat.lt_or_ge m ie with h | h
        · exact h
        · have : m = ie := by omega
          subst this
          rw [hempty.1] at hk; cases hk
      rw [findEntryAux_step_full hk, if_neg hkk, mask_eq_mod hc hpos, probe_succ]
      refine ih (m + 1) ts (by omega) (by omega) ?_
      rcases hts with rfl | ⟨mt, hmt, hts1, hts2⟩
      · exact Or.inl rfl
      · exact Or.inr ⟨mt, by omega, hts1, hts2⟩

end Klox

namespace Klox

/-! ## Slot bookkeeping helpers -/

theorem slotE_eq_getElem {entries : List Entry} {j : Nat} (hj : j < entries.length) :
    slotE entries j = entries[j] := by
  simp [slotE, List.getD_eq_getElem?_getD, List.getElem?_eq_getElem hj]

theorem slotE_mem {entries : List Entry} {j : Nat} (hj : j < entries.length) :
    slotE entries j ∈ entries := by
  rw [slotE_eq_getElem hj]; exact List.getElem_mem hj

theorem exists_slot_of_mem {entries : List Entry} {e : Entry} (he : e ∈ entries) :
    ∃ j, j < entries.length ∧ slotE entries j = e := by
  obtain ⟨j, hj, hje⟩ := List.mem_iff_getElem.mp he
  exact ⟨j, hj, by rw [slotE_eq_getElem hj, hje]⟩

theorem slotE_oob {entries : List Entry} {j : Nat} (hj : entries.length ≤ j) :
    slotE entries j = emptyEntry := by
  simp [slotE, List.getD_eq_getElem?_getD, List.getElem?_eq_none hj]

theorem slotE_set_self {entries : List Entry} {j : Nat} (hj : j < entries.length)
    (e : Entry) : slotE (entries.set j e) j = e := by
  simp [slotE, List.getD_eq_getElem?_getD, List.getElem?_set_self hj]

theorem slotE_set_ne {entries : List Entry} {j j' : Nat} (h : j ≠ j')
    (e : Entry) : slotE (entries.set j e) j' = slotE entries j' := by
  simp [slotE, List.getD_eq_getElem?_getD, List.getElem?_set_ne h]

theorem countP_set (p : Entry → Bool) (l : List Entry) :
    ∀ (j : Nat) (e : Entry), j < l.length →
      (l.set j e).countP p + (if p (slotE l j) then 1 else 0) =
        l.countP p + (if p e then 1 else 0) := by
  induction l with
  | nil => intro j e hj; simp at hj
  | cons a l ih =>
    intro j e hj
    cases j with
    | zero =>
      simp only [List.set_cons_zero, List.countP_cons, slotE, List.getD_cons_zero]
      omega
    | succ j =>
      have hj' : j < l.length := by simpa using hj
      have := ih j e hj'
      simp only [List.set_cons_succ, List.countP_cons, slotE,
        List.getD_cons_succ] at *
      omega

theorem isEmptySlot_iff (e : Entry) :
    e.isEmptySlot = true ↔ e.key = none ∧ e.value = Value.nil := by
  simp [Entry.isEmptySlot]

/-- A table whose non-empty-slot count is below its length has an empty slot. -/
theorem exists_empty_slot {entries : List Entry}
    (h : entries.countP (fun e => !e.isEmptySlot) < entries.length) :
    ∃ j, j < entries.length ∧ emptyAtE entries j := by
  by_contra hno
  push_neg at hno
  have hall : ∀ e ∈ entries, (fun e => !e.isEmptySlot) e = true := by
    intro e he
    obtain ⟨j, hj, rfl⟩ := exists_slot_of_mem he
    have hne := hno j hj
    unfold emptyAtE at hne
    cases hb : (slotE entries j).isEmptySlot
    · simp [hb]
    · exact absurd ((isEmptySlot_iff _).mp hb) hne
  rw [List.countP_eq_length.mpr hall] at h
  omega

end Klox

namespace Klox

/-! ## findEntry under the table invariant -/

/-- A stored key occupies only one slot. -/
theorem slot_unique {hashOf : Nat → Nat} {entries : List Entry} {cap : Nat}
    (hpi : ProbeInv hashOf entries cap) {j1 j2 k : Nat}
    (h1 : j1 < cap) (h2 : j2 < cap)
    (hk1 : (slotE entries j1).key = some k)
    (hk2 : (slotE entries j2).key = some k) : j1 = j2 := by
  obtain ⟨i1, hi1, he1, hp1⟩ := hpi j1 k h1 hk1
  obtain ⟨i2, hi2, he2, hp2⟩ := hpi j2 k h2 hk2
  rcases lt_trichotomy i1 i2 with h | h | h
  · exfalso; exact (hp2 i1 h).2 (he1 ▸ hk1)
  · rw [he1, he2, h]
  · exfalso; exact (hp1 i2 h).2 (he2 ▸ hk2)

/-- `findEntry` returns the slot that holds a stored key. -/
theorem findEntry_present {hashOf : Nat → Nat} {entries : List Entry} {cap : Nat}
    (hr : RawInv hashOf entries cap) {jk k : Nat} (hjk : jk < cap)
    (hkey : (slotE entries jk).key = some k) :
    findEntry hashOf entries cap k = some jk := by
  obtain ⟨i, hi, hji, hpref⟩ := hr.probeInv jk k hjk hkey
  have hpos : 0 < cap := by omega
  subst hji
  unfold findEntry
  rw [mask_eq_mod hr.cap_pow hpos]
  have h0 : hashOf k % cap = probe hashOf cap k 0 := (probe_zero k).symm
  rw [h0]
  exact findEntryAux_present hr.cap_pow hi hkey hpref cap 0 none (Nat.zero_le _)
    (by omega)

/-- For a key stored nowhere, `findEntry` returns a key-free slot on the
key's probe sequence whose probed prefix has no empty slot. -/
theorem findEntry_fresh {hashOf : Nat → Nat} {entries : List Entry} {cap : Nat}
    (hr : RawInv hashOf entries cap) {k : Nat}
    (hx : ∃ j, j < cap ∧ emptyAtE entries j)
    (habs : ∀ j, (slotE entries j).key ≠ some k) :
    ∃ ir, ir < cap ∧
      findEntry hashOf entries cap k = some (probe hashOf cap k ir) ∧
      (slotE entries (probe hashOf cap k ir)).key = none ∧
      ∀ i' < ir, ¬ emptyAtE entries (probe hashOf cap k i') ∧
        (slotE entries (probe hashOf cap k i')).key ≠ some k := by
  obtain ⟨j0, hj0, hj0e⟩ := hx
  have hpos : 0 < cap := by omega
  obtain ⟨i0, hi0, hp0⟩ := @probe_surj hashOf _ k hpos j0 hj0
  have hex : ∃ i, emptyAtE entries (probe hashOf cap k i) := ⟨i0, hp0 ▸ hj0e⟩
  classical
  let ie := Nat.find hex
  have hieE : emptyAtE entries (probe hashOf cap k ie) := Nat.find_spec hex
  have hieLe : ie ≤ i0 := Nat.find_min' hex (hp0 ▸ hj0e)
  have hie : ie < cap := by omega
  have hpref : ∀ i' < ie, ¬ emptyAtE entries (probe hashOf cap k i') :=
    fun i' hi' => Nat.find_min hex hi'
  obtain ⟨ir, hirle, hfind, hirk⟩ :=
    findEntryAux_fresh hr.cap_pow hie hieE hpref habs cap 0 none (Nat.zero_le _)
      (by omega) (Or.inl rfl)
  refine ⟨ir, by omega, ?_, hirk, ?_⟩
  · unfold findEntry
    rw [mask_eq_mod hr.cap_pow hpos]
    have h0 : hashOf k % cap = probe hashOf cap k 0 := (probe_zero k).symm
    rw [h0]
    exact hfind
  · intro i' hi'
    exact ⟨hpref i' (by omega), habs _⟩

end Klox

namespace Klox

/-! ## Preservation of the probe invariant by slot writes -/

theorem emptyAtE_set_ne {entries : List Entry} {j j' : Nat} (h : j ≠ j')
    (e : Entry) : emptyAtE (entries.set j e) j' ↔ emptyAtE entries j' := by
  unfold emptyAtE; rw [slotE_set_ne h]

theorem probeInv_congr_slots {hashOf : Nat → Nat} {e1 e2 : List Entry} {cap : Nat}
    (hkeys : ∀ j, (slotE e2 j).key = (slotE e1 j).key)
    (hemp : ∀ j, emptyAtE e2 j ↔ emptyAtE e1 j) :
    ProbeInv hashOf e1 cap → ProbeInv hashOf e2 cap := by
  intro hpi j k hj hk
  rw [hkeys] at hk
  obtain ⟨i, hi, hji, hpref⟩ := hpi j k hj hk
  refine ⟨i, hi, hji, fun i' hi' => ?_⟩
  obtain ⟨hne, hnk⟩ := hpref i' hi'
  exact ⟨fun h => hne ((hemp _).mp h), by rw [hkeys]; exact hnk⟩

/-- Writing a fresh key into the slot `findEntry` chose preserves the probe
invariant. -/
theorem probeInv_set_fresh {hashOf : Nat → Nat} {entries : List Entry}
    {cap : Nat} (hpi : ProbeInv hashOf entries cap)
    (hlen : entries.length = cap) {k ir : Nat} (hir : ir < cap)
    (hkey : (slotE entries (probe hashOf cap k ir)).key = none)
    (hpref : ∀ i' < ir, ¬ emptyAtE entries (probe hashOf cap k i') ∧
      (slotE entries (probe hashOf cap k i')).key ≠ some k)
    (habs : ∀ j, (slotE entries j).key ≠ some k) (v : Value) :
    ProbeInv hashOf (entries.set (probe hashOf cap k ir) ⟨some k, v⟩) cap := by
  have hpos : 0 < cap := by omega
  have hjr : probe hashOf cap k ir < cap := probe_lt _ _ hpos
  have hjrlen : probe hashOf cap k ir < entries.length := by omega
  intro j k' hj hk'
  by_cases hjeq : j = probe hashOf cap k ir
  · subst hjeq
    rw [slotE_set_self hjrlen] at hk'
    simp only [Option.some.injEq] at hk'
    subst hk'
    refine ⟨ir, hir, rfl, fun i' hi' => ?_⟩
    have hne : probe hashOf cap k ir ≠ probe hashOf cap k i' := by
      intro he
      exact absurd (probe_inj hpos hir (by omega) he) (by omega)
    rw [emptyAtE_set_ne hne, slotE_set_ne hne]
    exact hpref i' hi'
  · rw [slotE_set_ne (fun h => hjeq h.symm)] at hk'
    have hk'k : k' ≠ k := fun h => habs j (h ▸ hk')
    obtain ⟨i, hi, hji, hpref'⟩ := hpi j k' hj hk'
    refine ⟨i, hi, hji, fun i' hi' => ?_⟩
    obtain ⟨hne, hnk⟩ := hpref' i' hi'
    by_cases hp : probe hashOf cap k ir = probe hashOf cap k' i'
    · constructor
      · intro hemp
        rw [← hp] at hemp
        exact absurd (slotE_set_self hjrlen _ ▸ hemp.1) (by simp)
      · rw [← hp, slotE_set_self hjrlen]
        simp only [ne_eq, Option.some.injEq]
        exact fun h => hk'k h.symm
    · rw [emptyAtE_set_ne hp, slotE_set_ne hp]
      exact ⟨hne, hnk⟩

/-- Replacing a stored key by a tombstone preserves the probe invariant. -/
theorem probeInv_tombstone {hashOf : Nat → Nat} {entries : List Entry}
    {cap : Nat} (hpi : ProbeInv hashOf entries cap) {jk : Nat}
    (hjklen : jk < entries.length) :
    ProbeInv hashOf (entries.set jk ⟨none, Value.bool true⟩) cap := by
  intro j k' hj hk'
  by_cases hjeq : j = jk
  · subst hjeq
    rw [slotE_set_self hjklen] at hk'
    cases hk'
  · rw [slotE_set_ne (fun h => hjeq h.symm)] at hk'
    obtain ⟨i, hi, hji, hpref'⟩ := hpi j k' hj hk'
    refine ⟨i, hi, hji, fun i' hi' => ?_⟩
    obtain ⟨hne, hnk⟩ := hpref' i' hi'
    by_cases hp : jk = probe hashOf cap k' i'
    · constructor
      · intro hemp
        rw [← hp] at hemp
        have := slotE_set_self hjklen (⟨none, Value.bool true⟩ : Entry) ▸ hemp.2
        cases this
      · rw [← hp, slotE_set_self hjklen]
        simp
    · rw [emptyAtE_set_ne hp, slotE_set_ne hp]
      exact ⟨hne, hnk⟩

end Klox

namespace Klox

/-! ## The abstraction function -/

theorem findEntry_shape {hashOf : Nat → Nat} {entries : List Entry}
    {cap k jr : Nat} (h : findEntry hashOf entries cap k = some jr) :
    (slotE entries jr).key = some k ∨ (slotE entries jr).key = none :=
  findEntryAux_shape entries cap k cap _ none jr (by simp) h

theorem absT_eq_none_iff {t : Table} {k : Nat} :
    absT t k = none ↔ ∀ e ∈ t.entries, e.key ≠ some k := by
  simp [absT, List.find?_eq_none]

theorem absT_none_slots {t : Table} {k : Nat} (h : absT t k = none) (j : Nat) :
    (t.slot j).key ≠ some k := by
  rcases Nat.lt_or_ge j t.entries.length with hj | hj
  · exact absT_eq_none_iff.mp h _ (slotE_mem hj)
  · show (slotE t.entries j).key ≠ some k
    rw [slotE_oob hj]
    exact fun hcon => Option.noConfusion hcon

theorem exists_slot_of_absT_some {t : Table} (hlen : t.entries.length = t.capacity)
    {k : Nat} {v : Value} (h : absT t k = some v) :
    ∃ j, j < t.capacity ∧ (t.slot j).key = some k ∧ (t.slot j).value = v := by
  unfold absT at h
  rcases hf : t.entries.find? (fun e => e.key == some k) with _ | e
  · rw [hf] at h; cases h
  · rw [hf] at h
    have h : e.value = v := by simpa using h
    have hmem := List.mem_of_find?_eq_some hf
    have hp := List.find?_some hf
    simp only [beq_iff_eq] at hp
    obtain ⟨j, hj, hje⟩ := exists_slot_of_mem hmem
    exact ⟨j, by omega, by rw [Table.slot, hje]; exact hp,
      by rw [Table.slot, hje, h]⟩

theorem absT_some_of_slot {hashOf : Nat → Nat} {t : Table}
    (hr : RawInv hashOf t.entries t.capacity) {j k : Nat}
    (hj : j < t.capacity) (hk : (t.slot j).key = some k) :
    absT t k = some (t.slot j).value := by
  rcases ha : absT t k with _ | v
  · exact absurd hk (absT_none_slots ha j)
  · obtain ⟨j', hj', hk', hv'⟩ := exists_slot_of_absT_some hr.len_eq ha
    have : j' = j := slot_unique hr.probeInv hj' hj hk' hk
    subst this
    rw [← hv']

theorem absT_none_of_count_zero {t : Table}
    (hcnt : t.count = t.entries.countP (fun e => !e.isEmptySlot))
    (h : t.count = 0) (k : Nat) : absT t k = none := by
  rw [absT_eq_none_iff]
  intro e he
  rw [h] at hcnt
  have := (List.countP_eq_zero.mp hcnt.symm) e he
  simp only [Bool.not_eq_true', Bool.not_eq_false] at this
  have := (isEmptySlot_iff e).mp this
  rw [this.1]
  simp

/-- `tableGet` computes the abstract lookup. -/
theorem tableGet_eq_absT {hashOf : Nat → Nat} {t : Table}
    (ht : TableInv hashOf t) (k : Nat) : tableGet hashOf t k = absT t k := by
  unfold tableGet
  by_cases hc : t.count = 0
  · rw [if_pos hc, absT_none_of_count_zero ht.count_eq hc]
  · rw [if_neg hc]
    rcases ha : absT t k with _ | v
    · have habs := absT_none_slots ha
      rcases hf : findEntry hashOf t.entries t.capacity k with _ | j
      · rfl
      · rcases findEntry_shape hf with hk | hk
        · exact absurd hk (habs j)
        · show (match (t.slot j).key with
            | none => none
            | some _ => some (t.slot j).value) = none
          simp only [Table.slot]
          rw [hk]
    · obtain ⟨j, hj, hk, hv⟩ := exists_slot_of_absT_some ht.raw.len_eq ha
      rw [findEntry_present ht.raw hj hk]
      show (match (t.slot j).key with
        | none => none
        | some _ => some (t.slot j).value) = some v
      rw [hk, hv]

end Klox

namespace Klox

/-! ## Effect of slot writes on the abstraction -/

theorem absT_set_other {hashOf : Nat → Nat} {t t2 : Table}
    (hr2 : RawInv hashOf t2.entries t2.capacity)
    (hcap : t2.capacity = t.capacity) {jk : Nat} (hjk : jk < t.capacity)
    {e : Entry} (hent : t2.entries = t.entries.set jk e) {k' : Nat}
    (hold : (t.slot jk).key ≠ some k') (hnew : e.key ≠ some k')
    (hlen : t.entries.length = t.capacity) :
    absT t2 k' = absT t k' := by
  rcases ha : absT t k' with _ | v
  · rw [absT_eq_none_iff]
    intro e2 he2
    rw [hent] at he2
    rcases List.mem_or_eq_of_mem_set he2 with hmem | rfl
    · exact absT_eq_none_iff.mp ha _ hmem
    · exact hnew
  · obtain ⟨j', hj', hk', hv'⟩ := exists_slot_of_absT_some hlen ha
    have hne : jk ≠ j' := fun h => hold (h ▸ hk')
    have hslot : t2.slot j' = t.slot j' := by
      show slotE t2.entries j' = slotE t.entries j'
      rw [hent, slotE_set_ne hne]
    have := @absT_some_of_slot _ _ hr2 j' k'
      (by omega) (by rw [hslot]; exact hk')
    rw [this, hslot, hv']

theorem absT_none_of_no_slot {t : Table} {k : Nat}
    (hlen : t.entries.length = t.capacity)
    (habs : ∀ j, j < t.capacity → (t.slot j).key ≠ some k) :
    absT t k = none := by
  rw [absT_eq_none_iff]
  intro e he
  obtain ⟨j, hj, hje⟩ := exists_slot_of_mem he
  have := habs j (by omega)
  rw [Table.slot, hje] at this
  exact this

/-! ## Behaviour of tableDelete -/

theorem tableDelete_spec {hashOf : Nat → Nat} {t : Table}
    (ht : TableInv hashOf t) (k : Nat) :
    TableInv hashOf (tableDelete hashOf t k).2 ∧
    (tableDelete hashOf t k).1 = (absT t k).isSome ∧
    (∀ k', absT (tableDelete hashOf t k).2 k' =
      if k' = k then none else absT t k') ∧
    (tableDelete hashOf t k).2.capacity = t.capacity := by
  by_cases hc : t.count = 0
  · have hnone : ∀ k0, absT t k0 = none := absT_none_of_count_zero ht.count_eq hc
    unfold tableDelete
    rw [if_pos hc]
    refine ⟨ht, by rw [hnone k]; rfl, ?_, rfl⟩
    intro k'
    by_cases hk' : k' = k
    · subst hk'; rw [if_pos rfl, hnone k']
    · rw [if_neg hk']
  · rcases ha : absT t k with _ | v
    · -- key absent: findEntry lands on a key-free slot, nothing changes
      have habs := absT_none_slots ha
      have hres : tableDelete hashOf t k = (false, t) := by
        unfold tableDelete
        rw [if_neg hc]
        rcases hf : findEntry hashOf t.entries t.capacity k with _ | j
        · rfl
        · rcases findEntry_shape hf with hk | hk
          · exact absurd hk (habs j)
          · have hk' : (t.slot j).key = none := hk
            simp only [hk']
      rw [hres]
      refine ⟨ht, rfl, ?_, rfl⟩
      intro k'
      by_cases hk' : k' = k
      · subst hk'; rw [if_pos rfl, ha]
      · rw [if_neg hk']
    · -- key present: the slot becomes a tombstone
      obtain ⟨j, hj, hk, hv⟩ := exists_slot_of_absT_some ht.raw.len_eq ha
      have hjlen : j < t.entries.length := by rw [ht.raw.len_eq]; exact hj
      have hres : tableDelete hashOf t k =
          (true, ⟨t.count, t.capacity, t.entries.set j ⟨none, Value.bool true⟩⟩) := by
        unfold tableDelete
        rw [if_neg hc, findEntry_present ht.raw hj hk]
        simp only [hk]
      rw [hres]
      set t2 : Table := ⟨t.count, t.capacity, t.entries.set j ⟨none, Value.bool true⟩⟩
        with ht2
      have hlen2 : t2.entries.length = t2.capacity := by
        show (t.entries.set j ⟨none, Value.bool true⟩).length = t.capacity
        rw [List.length_set]; exact ht.raw.len_eq
      have hr2 : RawInv hashOf t2.entries t2.capacity :=
        ⟨hlen2, ht.raw.cap_pow, probeInv_tombstone ht.raw.probeInv hjlen⟩
      have hcnt2 : t2.count = t2.entries.countP (fun e => !e.isEmptySlot) := by
        have hstep := countP_set (fun e => !e.isEmptySlot) t.entries j
          ⟨none, Value.bool true⟩ hjlen
        have hfull : (!(slotE t.entries j).isEmptySlot) = true := by
          cases hb : (slotE t.entries j).isEmptySlot
          · rfl
          · exfalso
            have := (isEmptySlot_iff _).mp hb
            rw [Table.slot] at hk
            rw [this.1] at hk
            cases hk
        have htomb : (!(Entry.isEmptySlot ⟨none, Value.bool true⟩)) = true := by decide
        simp only [hfull, htomb] at hstep
        show t.count = List.countP (fun e => !e.isEmptySlot)
          (t.entries.set j ⟨none, Value.bool true⟩)
        rw [ht.count_eq]
        omega
      refine ⟨⟨hr2, ht.load, hcnt2⟩, by simp [ha], ?_, rfl⟩
      intro k'
      by_cases hk' : k' = k
      · subst hk'
        rw [if_pos rfl]
        refine absT_none_of_no_slot hlen2 ?_
        intro j' hj'
        by_cases hjj : j' = j
        · subst hjj
          show (slotE (t.entries.set j' ⟨none, Value.bool true⟩) j').key ≠ some k'
          rw [slotE_set_self hjlen]
          exact fun h => Option.noConfusion h
        · show (slotE (t.entries.set j ⟨none, Value.bool true⟩) j').key ≠ some k'
          rw [slotE_set_ne (fun h => hjj h.symm)]
          intro hkj'
          have hj'c : j' < t.capacity := hj'
          exact hjj (slot_unique ht.raw.probeInv hj'c hj hkj' hk)
      · rw [if_neg hk']
        refine @absT_set_other _ t t2 hr2 rfl _ hj _ rfl _ ?_ ?_ ht.raw.len_eq
        · rw [hk]; simp only [ne_eq, Option.some.injEq]; exact fun h => hk' h.symm
        · exact fun h => Option.noConfusion h

end Klox

namespace Klox

/-! ## The rebuild loop of adjustCapacity -/

/-- Invariant-carrying induction over the re-insertion loop.  Starting from
a tombstone-free partial table that holds none of the keys still to be
inserted, re-inserting a list of pairwise-distinct-key entries produces a
tombstone-free table holding exactly the old and the new bindings. -/
theorem adjustFold_spec {hashOf : Nat → Nat} {cap' : Nat}
    (hpow : ∃ n, cap' = 2 ^ n) :
    ∀ (src : List Entry) (acc : List Entry × Nat),
      acc.1.length = cap' →
      (∀ j, (slotE acc.1 j).key = none → (slotE acc.1 j).value = Value.nil) →
      ProbeInv hashOf acc.1 cap' →
      acc.2 = acc.1.countP (fun e => !e.isEmptySlot) →
      acc.2 + src.countP (fun e => e.isFull) ≤ cap' →
      (∀ e ∈ src, ∀ k, e.key = some k → ∀ j, (slotE acc.1 j).key ≠ some k) →
      List.Pairwise (fun e1 e2 => ∀ k, e1.key = some k → e2.key ≠ some k) src →
      ((src.foldl (adjustStep hashOf cap') acc).1.length = cap' ∧
      (∀ j, (slotE (src.foldl (adjustStep hashOf cap') acc).1 j).key = none →
        (slotE (src.foldl (adjustStep hashOf cap') acc).1 j).value = Value.nil) ∧
      ProbeInv hashOf (src.foldl (adjustStep hashOf cap') acc).1 cap' ∧
      (src.foldl (adjustStep hashOf cap') acc).2 =
        (src.foldl (adjustStep hashOf cap') acc).1.countP (fun e => !e.isEmptySlot) ∧
      (src.foldl (adjustStep hashOf cap') acc).2 =
        acc.2 + src.countP (fun e => e.isFull) ∧
      ∀ k v, (∃ j, j < cap' ∧
          (slotE (src.foldl (adjustStep hashOf cap') acc).1 j).key = some k ∧
          (slotE (src.foldl (adjustStep hashOf cap') acc).1 j).value = v) ↔
        ((∃ j, j < cap' ∧ (slotE acc.1 j).key = some k ∧
          (slotE acc.1 j).value = v) ∨
         (∃ e ∈ src, e.key = some k ∧ e.value = v))) := by
  obtain ⟨n, hn⟩ := hpow
  have hcpos : 0 < cap' := by rw [hn]; exact Nat.pos_pow_of_pos n (by omega)
  intro src
  induction src with
  | nil =>
    intro acc hlen htf hpi hcnt _ _ _
    refine ⟨hlen, htf, hpi, hcnt, by simp, ?_⟩
    intro k v
    simp
  | cons e rest ih =>
    intro acc hlen htf hpi hcnt hroom hdisj hpw
    rcases hek : e.key with _ | k
    · -- entry with no key: skipped by the loop
      have hstep : adjustStep hashOf cap' acc e = acc := by
        unfold adjustStep; rw [hek]
      have hfullhead : List.countP (fun e => e.isFull) (e :: rest) =
          List.countP (fun e => e.isFull) rest := by
        rw [List.countP_cons]
        simp [Entry.isFull, hek]
      have hrest := ih acc hlen htf hpi hcnt (by omega)
        (fun e' he' => hdisj e' (List.mem_cons_of_mem _ he'))
        (List.Pairwise.sublist (List.sublist_cons_self e rest) hpw)
      rw [List.foldl_cons, hstep]
      refine ⟨hrest.1, hrest.2.1, hrest.2.2.1, hrest.2.2.2.1, ?_, ?_⟩
      · rw [hrest.2.2.2.2.1]
        omega
      · intro k0 v0
        rw [hrest.2.2.2.2.2 k0 v0]
        constructor
        · rintro (h | h)
          · exact Or.inl h
          · obtain ⟨e', he', hk', hv'⟩ := h
            exact Or.inr ⟨e', List.mem_cons_of_mem _ he', hk', hv'⟩
        · rintro (h | ⟨e', he', hk', hv'⟩)
          · exact Or.inl h
          · rcases List.mem_cons.mp he' with rfl | he'
            · rw [hek] at hk'; cases hk'
            · exact Or.inr ⟨e', he', hk', hv'⟩
    · -- full entry: inserted into a fresh slot
      have hraw : RawInv hashOf acc.1 cap' := ⟨hlen, Or.inr ⟨n, hn⟩, hpi⟩
      have habs : ∀ j, (slotE acc.1 j).key ≠ some k :=
        fun j => hdisj e (List.mem_cons_self e rest) k hek j
      have hfullhead : List.countP (fun e => e.isFull) (e :: rest) =
          List.countP (fun e => e.isFull) rest + 1 := by
        rw [List.countP_cons]
        simp [Entry.isFull, hek]
      have hex : ∃ j, j < cap' ∧ emptyAtE acc.1 j := by
        have hcount : acc.1.countP (fun e => !e.isEmptySlot) < acc.1.length := by
          omega
        obtain ⟨j, hj, hje⟩ := exists_empty_slot hcount
        exact ⟨j, by omega, hje⟩
      obtain ⟨ir, hir, hfind, hirkey, hirpref⟩ := findEntry_fresh hraw hex habs
      have hjr : probe hashOf cap' k ir < cap' := probe_lt _ _ hcpos
      have hjrlen : probe hashOf cap' k ir < acc.1.length := by omega
      have hstep : adjustStep hashOf cap' acc e =
          (acc.1.set (probe hashOf cap' k ir) ⟨some k, e.value⟩, acc.2 + 1) := by
        unfold adjustStep
        simp only [hek, hfind]
      have hslot_self :
          slotE (acc.1.set (probe hashOf cap' k ir) ⟨some k, e.value⟩)
            (probe hashOf cap' k ir) = ⟨some k, e.value⟩ :=
        slotE_set_self hjrlen _
      have hslot_ne : ∀ j, j ≠ probe hashOf cap' k ir →
          slotE (acc.1.set (probe hashOf cap' k ir) ⟨some k, e.value⟩) j =
            slotE acc.1 j :=
        fun j hj => slotE_set_ne (fun h => hj h.symm) _
      have hcount_old :
          (!(slotE acc.1 (probe hashOf cap' k ir)).isEmptySlot) = false := by
        have hv := htf _ hirkey
        cases hb : (slotE acc.1 (probe hashOf cap' k ir)).isEmptySlot
        · exfalso
          have hcon := (isEmptySlot_iff
            (slotE acc.1 (probe hashOf cap' k ir))).mpr ⟨hirkey, hv⟩
          rw [hcon] at hb; cases hb
        · rfl
      have hstepc := countP_set (fun e => !e.isEmptySlot) acc.1
        (probe hashOf cap' k ir) ⟨some k, e.value⟩ hjrlen
      have hnew : (!(Entry.isEmptySlot ⟨some k, e.value⟩)) = true := by
        simp [Entry.isEmptySlot]
      simp only [hcount_old, hnew] at hstepc
      simp at hstepc
      set acc2 : List Entry × Nat :=
        (acc.1.set (probe hashOf cap' k ir) ⟨some k, e.value⟩, acc.2 + 1)
        with hacc2
      have hlen2 : acc2.1.length = cap' := by
        show (acc.1.set _ _).length = cap'
        rw [List.length_set]; exact hlen
      have htf2 : ∀ j, (slotE acc2.1 j).key = none →
          (slotE acc2.1 j).value = Value.nil := by
        intro j hkj
        by_cases hj : j = probe hashOf cap' k ir
        · rw [hj, hslot_self] at hkj; cases hkj
        · rw [hslot_ne j hj] at hkj ⊢
          exact htf j hkj
      have hpi2 : ProbeInv hashOf acc2.1 cap' :=
        probeInv_set_fresh hpi hlen hir hirkey hirpref habs e.value
      have hcnt2 : acc2.2 = acc2.1.countP (fun e => !e.isEmptySlot) := by
        show acc.2 + 1 = List.countP (fun e => !e.isEmptySlot)
          (acc.1.set (probe hashOf cap' k ir) ⟨some k, e.value⟩)
        rw [hcnt]
        omega
      have hroom2 : acc2.2 + rest.countP (fun e => e.isFull) ≤ cap' := by
        show acc.2 + 1 + _ ≤ cap'
        omega
      have hdisj2 : ∀ e' ∈ rest, ∀ k', e'.key = some k' → ∀ j,
          (slotE acc2.1 j).key ≠ some k' := by
        intro e' he' k' hk' j
        by_cases hj : j = probe hashOf cap' k ir
        · rw [hj, hslot_self]
          have hkk' : k ≠ k' := by
            intro h
            exact (List.pairwise_cons.mp hpw).1 e' he' k hek (h ▸ hk')
          simp only [ne_eq, Option.some.injEq]
          exact hkk'
        · rw [hslot_ne j hj]
          exact hdisj e' (List.mem_cons_of_mem _ he') k' hk' j
      have hpw2 := (List.pairwise_cons.mp hpw).2
      have hrest := ih acc2 hlen2 htf2 hpi2 hcnt2 hroom2 hdisj2 hpw2
      rw [List.foldl_cons, hstep]
      refine ⟨hrest.1, hrest.2.1, hrest.2.2.1, hrest.2.2.2.1, ?_, ?_⟩
      · rw [hrest.2.2.2.2.1, hfullhead]
        show acc.2 + 1 + _ = _
        omega
      · intro k0 v0
        rw [hrest.2.2.2.2.2 k0 v0]
        constructor
        · rintro (⟨j, hj, hkj, hvj⟩ | ⟨e', he', hk', hv'⟩)
          · by_cases hje : j = probe hashOf cap' k ir
            · rw [hje, hslot_self] at hkj hvj
              simp only [Option.some.injEq] at hkj
              subst hkj
              exact Or.inr ⟨e, List.mem_cons_self e rest, hek, hvj⟩
            · rw [hslot_ne j hje] at hkj hvj
              exact Or.inl ⟨j, hj, hkj, hvj⟩
          · exact Or.inr ⟨e', List.mem_cons_of_mem _ he', hk', hv'⟩
        · rintro (⟨j, hj, hkj, hvj⟩ | ⟨e', he', hk', hv'⟩)
          · have hje : j ≠ probe hashOf cap' k ir := by
              intro h
              rw [h, hirkey] at hkj
              cases hkj
            refine Or.inl ⟨j, hj, ?_⟩
            rw [hslot_ne j hje]
            exact ⟨hkj, hvj⟩
          · rcases List.mem_cons.mp he' with rfl | he'
            · rw [hek] at hk'
              simp only [Option.some.injEq] at hk'
              subst hk'
              refine Or.inl ⟨probe hashOf cap' k ir, hjr, ?_⟩
              rw [hslot_self]
              exact ⟨rfl, hv'⟩
            · exact Or.inr ⟨e', he', hk', hv'⟩

end Klox

namespace Klox

/-! ## adjustCapacity preserves the represented map -/

theorem slotE_replicate (n j : Nat) :
    slotE (List.replicate n emptyEntry) j = emptyEntry := by
  unfold slotE
  rcases Nat.lt_or_ge j n with hj | hj
  · rw [List.getD_eq_getElem?_getD, List.getElem?_eq_getElem
      (by simpa using hj)]
    simp
  · rw [List.getD_eq_getElem?_getD, List.getElem?_eq_none (by simpa using hj)]
    rfl

/-- The entries of a well-formed table have pairwise distinct keys. -/
theorem entries_pairwise_keys {hashOf : Nat → Nat} {t : Table}
    (ht : TableInv hashOf t) :
    List.Pairwise (fun e1 e2 => ∀ k, e1.key = some k → e2.key ≠ some k)
      t.entries := by
  rw [List.pairwise_iff_getElem]
  intro i j hi hj hij
  intro k hki hkj
  have h1 : (t.slot i).key = some k := by
    rw [Table.slot, slotE_eq_getElem hi]; exact hki
  have h2 : (t.slot j).key = some k := by
    rw [Table.slot, slotE_eq_getElem hj]; exact hkj
  have := slot_unique ht.raw.probeInv
    (by rw [← ht.raw.len_eq]; exact hi) (by rw [← ht.raw.len_eq]; exact hj) h1 h2
  omega

/-- A table key-value binding corresponds to an entry of the list. -/
theorem slot_binding_iff_mem {t : Table} (hlen : t.entries.length = t.capacity)
    (k : Nat) (v : Value) :
    (∃ j, j < t.capacity ∧ (t.slot j).key = some k ∧ (t.slot j).value = v) ↔
    (∃ e ∈ t.entries, e.key = some k ∧ e.value = v) := by
  constructor
  · rintro ⟨j, hj, hk, hv⟩
    exact ⟨t.slot j, slotE_mem (by omega), hk, hv⟩
  · rintro ⟨e, he, hk, hv⟩
    obtain ⟨j, hj, hje⟩ := exists_slot_of_mem he
    exact ⟨j, by omega, by rw [Table.slot, hje]; exact hk,
      by rw [Table.slot, hje]; exact hv⟩

theorem adjustCapacity_spec {hashOf : Nat → Nat} {t : Table}
    (ht : TableInv hashOf t) {cap' : Nat} (hpow : ∃ n, cap' = 2 ^ n)
    (hroom : t.entries.countP (fun e => e.isFull) ≤ cap') :
    (adjustCapacity hashOf t cap').capacity = cap' ∧
    RawInv hashOf (adjustCapacity hashOf t cap').entries cap' ∧
    (adjustCapacity hashOf t cap').count =
      (adjustCapacity hashOf t cap').entries.countP (fun e => !e.isEmptySlot) ∧
    (adjustCapacity hashOf t cap').count =
      t.entries.countP (fun e => e.isFull) ∧
    (∀ j, (slotE (adjustCapacity hashOf t cap').entries j).key = none →
      (slotE (adjustCapacity hashOf t cap').entries j).value = Value.nil) ∧
    (∀ k, absT (adjustCapacity hashOf t cap') k = absT t k) := by
  have hlen0 : (List.replicate cap' emptyEntry).length = cap' := by simp
  have htf0 : ∀ j, (slotE (List.replicate cap' emptyEntry) j).key = none →
      (slotE (List.replicate cap' emptyEntry) j).value = Value.nil := by
    intro j _
    rw [slotE_replicate]
    rfl
  have hpi0 : ProbeInv hashOf (List.replicate cap' emptyEntry) cap' := by
    intro j k hj hk
    rw [slotE_replicate] at hk
    cases hk
  have hcnt0 : (0 : Nat) =
      (List.replicate cap' emptyEntry).countP (fun e => !e.isEmptySlot) := by
    rw [List.countP_eq_zero.mpr]
    intro e he
    rw [List.eq_of_mem_replicate he]
    decide
  have hdisj0 : ∀ e ∈ t.entries, ∀ k, e.key = some k → ∀ j,
      (slotE (List.replicate cap' emptyEntry) j).key ≠ some k := by
    intro e _ k _ j
    rw [slotE_replicate]
    exact fun h => Option.noConfusion h
  have hfold := adjustFold_spec hpow t.entries (List.replicate cap' emptyEntry, 0)
    hlen0 htf0 hpi0 hcnt0 (by simpa using hroom) hdisj0 (entries_pairwise_keys ht)
  obtain ⟨hlen', htf', hpi', hcnt', hcval', hchar⟩ := hfold
  refine ⟨rfl, ⟨hlen', hpow.elim (fun n hn => Or.inr ⟨n, hn⟩), hpi'⟩, hcnt',
    by simpa using hcval', htf', ?_⟩
  intro k
  have hchar' := fun v => (hchar k v).trans (by
    constructor
    · rintro (⟨j, _, hk, _⟩ | h)
      · rw [slotE_replicate] at hk; cases hk
      · exact h
    · intro h; exact Or.inr h)
  rcases ha : absT t k with _ | v
  · rw [absT_eq_none_iff]
    intro e' he'
    intro hke'
    obtain ⟨j, hj, hje⟩ := exists_slot_of_mem he'
    have hlenA : (adjustCapacity hashOf t cap').entries.length = cap' := hlen'
    have hj' : j < cap' := by omega
    have hbind : ∃ jj, jj < cap' ∧
        (slotE (adjustCapacity hashOf t cap').entries jj).key = some k ∧
        (slotE (adjustCapacity hashOf t cap').entries jj).value = e'.value :=
      ⟨j, hj', by rw [hje]; exact hke', by rw [hje]⟩
    have := (hchar' e'.value).mp hbind
    obtain ⟨e0, he0, hk0, _⟩ := this
    exact absT_eq_none_iff.mp ha e0 he0 hk0
  · obtain ⟨j, hj, hk, hv⟩ := exists_slot_of_absT_some ht.raw.len_eq ha
    have hmem : ∃ e ∈ t.entries, e.key = some k ∧ e.value = v :=
      (slot_binding_iff_mem ht.raw.len_eq k v).mp ⟨j, hj, hk, hv⟩
    obtain ⟨j', hj', hk', hv'⟩ := (hchar' v).mpr hmem
    have hraw' : RawInv hashOf (adjustCapacity hashOf t cap').entries
        (adjustCapacity hashOf t cap').capacity :=
      ⟨hlen', hpow.elim (fun n hn => Or.inr ⟨n, hn⟩), hpi'⟩
    have := @absT_some_of_slot _ _ hraw' j' k hj' hk'
    rw [this]
    exact congrArg some hv'

end Klox

namespace Klox

/-! ## Behaviour of tableSet -/

theorem tableSetBody_spec {hashOf : Nat → Nat} {t : Table}
    (ht : TableInv hashOf t) (hroom : 4 * (t.count + 1) ≤ 3 * t.capacity)
    (k : Nat) (v : Value) :
    TableInv hashOf (tableSetBody hashOf t k v).2 ∧
    (tableSetBody hashOf t k v).1 = (absT t k).isNone ∧
    (∀ k', absT (tableSetBody hashOf t k v).2 k' =
      if k' = k then some v else absT t k') ∧
    (tableSetBody hashOf t k v).2.capacity = t.capacity := by
  have hpos : 0 < t.capacity := by omega
  have hcntlt : t.count < t.capacity := by omega
  rcases ha : absT t k with _ | v0
  · -- fresh key: findEntry picks a key-free slot on the probe path
    have habs : ∀ j, (t.slot j).key ≠ some k := absT_none_slots ha
    have hex : ∃ j, j < t.capacity ∧ emptyAtE t.entries j := by
      have hcount : t.entries.countP (fun e => !e.isEmptySlot) <
          t.entries.length := by
        rw [← ht.count_eq, ht.raw.len_eq]; omega
      obtain ⟨j, hj, hje⟩ := exists_empty_slot hcount
      exact ⟨j, by rw [← ht.raw.len_eq]; exact hj, hje⟩
    obtain ⟨ir, hir, hfind, hirkey, hirpref⟩ := findEntry_fresh ht.raw hex habs
    have hjr : probe hashOf t.capacity k ir < t.capacity := probe_lt _ _ hpos
    have hjrlen : probe hashOf t.capacity k ir < t.entries.length := by
      rw [ht.raw.len_eq]; exact hjr
    have hres : tableSetBody hashOf t k v =
        (true, ⟨if (t.slot (probe hashOf t.capacity k ir)).key = none ∧
            (t.slot (probe hashOf t.capacity k ir)).value = Value.nil
          then t.count + 1 else t.count, t.capacity,
          t.entries.set (probe hashOf t.capacity k ir) ⟨some k, v⟩⟩) := by
      unfold tableSetBody
      simp only [hfind]
      have : (t.slot (probe hashOf t.capacity k ir)).key.isNone = true := by
        rw [Table.slot, hirkey]; rfl
      rw [this]
    rw [hres]
    have hslot_self :
        slotE (t.entries.set (probe hashOf t.capacity k ir) ⟨some k, v⟩)
          (probe hashOf t.capacity k ir) = ⟨some k, v⟩ :=
      slotE_set_self hjrlen _
    have hslot_ne : ∀ j, j ≠ probe hashOf t.capacity k ir →
        slotE (t.entries.set (probe hashOf t.capacity k ir) ⟨some k, v⟩) j =
          slotE t.entries j :=
      fun j hj => slotE_set_ne (fun h => hj h.symm) _
    have hstepc := countP_set (fun e => !e.isEmptySlot) t.entries
      (probe hashOf t.capacity k ir) ⟨some k, v⟩ hjrlen
    have hnewfull : (!(Entry.isEmptySlot ⟨some k, v⟩)) = true := by
      simp [Entry.isEmptySlot]
    simp only [hnewfull] at hstepc
    simp at hstepc
    have hraw2 : ∀ cnt, RawInv hashOf
        (t.entries.set (probe hashOf t.capacity k ir) ⟨some k, v⟩)
        (Table.mk cnt t.capacity
          (t.entries.set (probe hashOf t.capacity k ir) ⟨some k, v⟩)).capacity := by
      intro cnt
      exact ⟨by rw [List.length_set]; exact ht.raw.len_eq, ht.raw.cap_pow,
        probeInv_set_fresh ht.raw.probeInv ht.raw.len_eq hir hirkey hirpref habs v⟩
    have habsT : ∀ cnt k', absT (Table.mk cnt t.capacity
        (t.entries.set (probe hashOf t.capacity k ir) ⟨some k, v⟩)) k' =
        if k' = k then some v else absT t k' := by
      intro cnt k'
      by_cases hk' : k' = k
      · subst hk'
        rw [if_pos rfl]
        have := @absT_some_of_slot _ ⟨cnt, t.capacity,
            t.entries.set (probe hashOf t.capacity k' ir) ⟨some k', v⟩⟩
          (hraw2 cnt) (probe hashOf t.capacity k' ir) k' hjr
          (by show (slotE (t.entries.set _ _) _).key = some k'
              rw [hslot_self])
        rw [this]
        show some (slotE (t.entries.set _ _) _).value = some v
        rw [hslot_self]
      · rw [if_neg hk']
        refine @absT_set_other _ t ⟨cnt, t.capacity,
            t.entries.set (probe hashOf t.capacity k ir) ⟨some k, v⟩⟩
          (hraw2 cnt) rfl _ hjr _ rfl _ ?_ ?_ ht.raw.len_eq
        · rw [Table.slot, hirkey]
          exact fun h => Option.noConfusion h
        · simp only [ne_eq, Option.some.injEq]
          exact fun h => hk' h.symm
    by_cases hvempty : (t.slot (probe hashOf t.capacity k ir)).value = Value.nil
    · -- a truly empty slot is consumed: count increases
      have hcond : ((t.slot (probe hashOf t.capacity k ir)).key = none ∧
          (t.slot (probe hashOf t.capacity k ir)).value = Value.nil) :=
        ⟨hirkey, hvempty⟩
      rw [if_pos hcond]
      have holdempty : (slotE t.entries (probe hashOf t.capacity k ir)).isEmptySlot
          = true := (isEmptySlot_iff _).mpr ⟨hirkey, hvempty⟩
      refine ⟨⟨hraw2 _, ?_, ?_⟩, rfl, habsT _, rfl⟩
      · show 4 * (t.count + 1) ≤ 3 * t.capacity
        omega
      · show t.count + 1 = List.countP (fun e => !e.isEmptySlot)
          (t.entries.set (probe hashOf t.capacity k ir) ⟨some k, v⟩)
        rw [ht.count_eq]
        simp only [holdempty] at hstepc
        simp at hstepc
        omega
    · -- a tombstone is reused: count unchanged
      have hcond : ¬ ((t.slot (probe hashOf t.capacity k ir)).key = none ∧
          (t.slot (probe hashOf t.capacity k ir)).value = Value.nil) :=
        fun h => hvempty h.2
      rw [if_neg hcond]
      have holdtomb : (slotE t.entries (probe hashOf t.capacity k ir)).isEmptySlot
          = false := by
        cases hb : (slotE t.entries (probe hashOf t.capacity k ir)).isEmptySlot
        · rfl
        · exact absurd ((isEmptySlot_iff _).mp hb) hcond
      refine ⟨⟨hraw2 _, ?_, ?_⟩, rfl, habsT _, rfl⟩
      · show 4 * t.count ≤ 3 * t.capacity
        omega
      · show t.count = List.countP (fun e => !e.isEmptySlot)
          (t.entries.set (probe hashOf t.capacity k ir) ⟨some k, v⟩)
        rw [ht.count_eq]
        simp only [holdtomb] at hstepc
        simp at hstepc
        omega
  · -- existing key: overwrite in place
    obtain ⟨j, hj, hk, hv0⟩ := exists_slot_of_absT_some ht.raw.len_eq ha
    have hjlen : j < t.entries.length := by rw [ht.raw.len_eq]; exact hj
    have hres : tableSetBody hashOf t k v =
        (false, ⟨t.count, t.capacity, t.entries.set j ⟨some k, v⟩⟩) := by
      have h1 : (t.slot j).key.isNone = false := by rw [hk]; rfl
      have h2 : ¬ ((t.slot j).key = none ∧ (t.slot j).value = Value.nil) := by
        intro h; rw [hk] at h; exact Option.noConfusion h.1
      unfold tableSetBody
      simp only [findEntry_present ht.raw hj hk]
      rw [h1, if_neg h2]
    rw [hres]
    have hslot_self : slotE (t.entries.set j ⟨some k, v⟩) j = ⟨some k, v⟩ :=
      slotE_set_self hjlen _
    have hslot_ne : ∀ j', j' ≠ j →
        slotE (t.entries.set j ⟨some k, v⟩) j' = slotE t.entries j' :=
      fun j' hj' => slotE_set_ne (fun h => hj' h.symm) _
    have hraw2 : RawInv hashOf (t.entries.set j ⟨some k, v⟩) t.capacity := by
      refine ⟨by rw [List.length_set]; exact ht.raw.len_eq, ht.raw.cap_pow, ?_⟩
      refine probeInv_congr_slots (fun j' => ?_) (fun j' => ?_) ht.raw.probeInv
      · by_cases hj' : j' = j
        · subst hj'
          rw [hslot_self, Table.slot] at *
          rw [hk]
        · rw [hslot_ne j' hj']
      · by_cases hj' : j' = j
        · subst hj'
          unfold emptyAtE
          rw [hslot_self]
          constructor
          · intro h; exact absurd h.1 (by simp)
          · intro h
            rw [Table.slot] at hk
            rw [hk] at h
            exact absurd h.1 (by simp)
        · unfold emptyAtE
          rw [hslot_ne j' hj']
    have hcnt2 : t.count =
        (t.entries.set j ⟨some k, v⟩).countP (fun e => !e.isEmptySlot) := by
      have hstepc := countP_set (fun e => !e.isEmptySlot) t.entries j
        ⟨some k, v⟩ hjlen
      have hnewfull : (!(Entry.isEmptySlot ⟨some k, v⟩)) = true := by
        simp [Entry.isEmptySlot]
      have holdfull : (!(slotE t.entries j).isEmptySlot) = true := by
        cases hb : (slotE t.entries j).isEmptySlot
        · rfl
        · exfalso
          have := (isEmptySlot_iff _).mp hb
          rw [Table.slot] at hk
          rw [this.1] at hk
          cases hk
      simp only [hnewfull, holdfull] at hstepc
      simp at hstepc
      rw [ht.count_eq]
      omega
    refine ⟨⟨hraw2, ht.load, hcnt2⟩, rfl, ?_, rfl⟩
    intro k'
    by_cases hk' : k' = k
    · subst hk'
      rw [if_pos rfl]
      have := @absT_some_of_slot _ ⟨t.count, t.capacity,
          t.entries.set j ⟨some k', v⟩⟩ hraw2 j k' hj
        (by show (slotE (t.entries.set _ _) _).key = some k'
            rw [hslot_self])
      rw [this]
      show some (slotE (t.entries.set _ _) _).value = some v
      rw [hslot_self]
    · rw [if_neg hk']
      refine @absT_set_other _ t
        ⟨t.count, t.capacity, t.entries.set j ⟨some k, v⟩⟩ hraw2 rfl _ hj
        _ rfl _ ?_ ?_ ht.raw.len_eq
      · rw [hk]
        simp only [ne_eq, Option.some.injEq]
        exact fun h => hk' h.symm
      · simp only [ne_eq, Option.some.injEq]
        exact fun h => hk' h.symm

end Klox

namespace Klox

/-! ## tableSet including growth -/

theorem countP_isFull_le (l : List Entry) :
    l.countP (fun e => e.isFull) ≤ l.countP (fun e => !e.isEmptySlot) := by
  apply List.countP_mono_left
  intro e _ h
  rcases e with ⟨k, val⟩
  cases k with
  | none => simp [Entry.isFull] at h
  | some k0 => simp [Entry.isEmptySlot]

theorem tableSet_spec {hashOf : Nat → Nat} {t : Table} (ht : TableInv hashOf t)
    (k : Nat) (v : Value) :
    TableInv hashOf (tableSet hashOf t k v).2 ∧
    (tableSet hashOf t k v).1 = (absT t k).isNone ∧
    (∀ k', absT (tableSet hashOf t k v).2 k' =
      if k' = k then some v else absT t k') := by
  by_cases hg : 4 * (t.count + 1) > 3 * t.capacity
  · have hgrowpow : ∃ n, growCapacity t.capacity = 2 ^ n := by
      unfold growCapacity
      by_cases h8 : t.capacity < 8
      · rw [if_pos h8]; exact ⟨3, by norm_num⟩
      · rw [if_neg h8]
        rcases ht.raw.cap_pow with h0 | ⟨n, hn⟩
        · omega
        · exact ⟨n + 1, by rw [hn, Nat.pow_succ]⟩
    have hfull_le := countP_isFull_le t.entries
    have hcnteq := ht.count_eq
    have hload := ht.load
    have hroom' : t.entries.countP (fun e => e.isFull) ≤
        growCapacity t.capacity := by
      unfold growCapacity
      by_cases h8 : t.capacity < 8
      · rw [if_pos h8]; omega
      · rw [if_neg h8]; omega
    obtain ⟨hcap', hraw', hcnt', hcval', htf', habs'⟩ :=
      adjustCapacity_spec ht hgrowpow hroom'
    have hinv1 : TableInv hashOf (adjustCapacity hashOf t (growCapacity t.capacity)) := by
      refine ⟨hraw', ?_, hcnt'⟩
      rw [hcval']
      show 4 * _ ≤ 3 * growCapacity t.capacity
      unfold growCapacity
      by_cases h8 : t.capacity < 8
      · rw [if_pos h8]; omega
      · rw [if_neg h8]; omega
    have hroom1 : 4 * ((adjustCapacity hashOf t (growCapacity t.capacity)).count + 1) ≤
        3 * (adjustCapacity hashOf t (growCapacity t.capacity)).capacity := by
      rw [hcval']
      show 4 * (_ + 1) ≤ 3 * growCapacity t.capacity
      unfold growCapacity
      by_cases h8 : t.capacity < 8
      · rw [if_pos h8]; omega
      · rw [if_neg h8]; omega
    have hbody := tableSetBody_spec hinv1 hroom1 k v
    unfold tableSet
    rw [if_pos hg]
    refine ⟨hbody.1, ?_, ?_⟩
    · rw [hbody.2.1, habs']
    · intro k'
      rw [hbody.2.2.1 k', habs']
  · have hroom : 4 * (t.count + 1) ≤ 3 * t.capacity := by omega
    have hbody := tableSetBody_spec ht hroom k v
    unfold tableSet
    rw [if_neg hg]
    exact ⟨hbody.1, hbody.2.1, hbody.2.2.1⟩

end Klox

namespace Klox

/-! ## Sequences of table operations -/

theorem tableInv_initTable (hashOf : Nat → Nat) : TableInv hashOf initTable := by
  refine ⟨⟨rfl, Or.inl rfl, ?_⟩, by simp [initTable], by simp [initTable]⟩
  intro j k hj _
  simp [initTable] at hj

theorem runTOps_spec (hashOf : Nat → Nat) (ops : List TOp) :
    TableInv hashOf (runTOps hashOf ops initTable) ∧
    ∀ k, absT (runTOps hashOf ops initTable) k =
      runSpec ops (fun _ => none) k := by
  suffices h : ∀ t (m : Nat → Option Value), TableInv hashOf t →
      (∀ k, absT t k = m k) →
      TableInv hashOf (ops.foldl (runTOp hashOf) t) ∧
      ∀ k, absT (ops.foldl (runTOp hashOf) t) k = ops.foldl specTOp m k by
    exact h initTable (fun _ => none) (tableInv_initTable hashOf) (fun _ => rfl)
  induction ops with
  | nil => intro t m h1 h2; exact ⟨h1, h2⟩
  | cons op rest ih =>
    intro t m h1 h2
    rw [List.foldl_cons, List.foldl_cons]
    rcases op with ⟨k, v⟩ | ⟨k⟩
    · have hs := tableSet_spec h1 k v
      refine ih _ _ hs.1 ?_
      intro k'
      rw [show runTOp hashOf t (TOp.setOp k v) = (tableSet hashOf t k v).2 from rfl,
        hs.2.2 k']
      show _ = if k' = k then some v else m k'
      by_cases hk' : k' = k
      · rw [if_pos hk', if_pos hk']
      · rw [if_neg hk', if_neg hk', h2]
    · have hs := tableDelete_spec h1 k
      refine ih _ _ hs.1 ?_
      intro k'
      rw [show runTOp hashOf t (TOp.delOp k) = (tableDelete hashOf t k).2 from rfl,
        hs.2.2.1 k']
      show _ = if k' = k then none else m k'
      by_cases hk' : k' = k
      · rw [if_pos hk', if_pos hk']
      · rw [if_neg hk', if_neg hk', h2]

end Klox

namespace Klox

/-- **C10.** The hash table implements a finite map from String references
to Values: after any sequence of tableSet and tableDelete operations
starting from an empty table, `tableGet` returns exactly the most recent
value set for a key that was set and not deleted since, and nothing
otherwise; `tableDelete` returns true exactly when the key is present and
removes only that key's mapping, leaving the map unchanged when the key is
absent; and `adjustCapacity` (as invoked by `tableSet` when growing)
discards all tombstones, preserving all live bindings across rehashing. -/
theorem C10_table_refines_finite_map (hashOf : Nat → Nat) (ops : List TOp)
    (k : Nat) :
    tableGet hashOf (runTOps hashOf ops initTable) k =
      runSpec ops (fun _ => none) k ∧
    (tableDelete hashOf (runTOps hashOf ops initTable) k).1 =
      (runSpec ops (fun _ => none) k).isSome ∧
    (∀ k', tableGet hashOf
        (tableDelete hashOf (runTOps hashOf ops initTable) k).2 k' =
      if k' = k then none else runSpec ops (fun _ => none) k') ∧
    (∀ j, (slotE (adjustCapacity hashOf (runTOps hashOf ops initTable)
        (growCapacity (runTOps hashOf ops initTable).capacity)).entries j).key
          = none →
      (slotE (adjustCapacity hashOf (runTOps hashOf ops initTable)
        (growCapacity (runTOps hashOf ops initTable).capacity)).entries j).value
          = Value.nil) ∧
    (∀ k', absT (adjustCapacity hashOf (runTOps hashOf ops initTable)
        (growCapacity (runTOps hashOf ops initTable).capacity)) k' =
      runSpec ops (fun _ => none) k') := by
  obtain ⟨hinv, habs⟩ := runTOps_spec hashOf ops
  have hdel := tableDelete_spec hinv k
  have hgrowpow : ∃ n, growCapacity (runTOps hashOf ops initTable).capacity
      = 2 ^ n := by
    unfold growCapacity
    by_cases h8 : (runTOps hashOf ops initTable).capacity < 8
    · rw [if_pos h8]; exact ⟨3, by norm_num⟩
    · rw [if_neg h8]
      rcases hinv.raw.cap_pow with h0 | ⟨n, hn⟩
      · omega
      · exact ⟨n + 1, by rw [hn, Nat.pow_succ]⟩
  have hroom : (runTOps hashOf ops initTable).entries.countP
      (fun e => e.isFull) ≤
      growCapacity (runTOps hashOf ops initTable).capacity := by
    have h1 := countP_isFull_le (runTOps hashOf ops initTable).entries
    have h2 := hinv.count_eq
    have h3 := hinv.load
    unfold growCapacity
    by_cases h8 : (runTOps hashOf ops initTable).capacity < 8
    · rw [if_pos h8]; omega
    · rw [if_neg h8]; omega
  obtain ⟨_, _, _, _, htf, hadjabs⟩ := adjustCapacity_spec hinv hgrowpow hroom
  refine ⟨?_, ?_, ?_, htf, ?_⟩
  · rw [tableGet_eq_absT hinv, habs]
  · rw [hdel.2.1, habs]
  · intro k'
    rw [tableGet_eq_absT hdel.1, hdel.2.2.1 k']
    by_cases hk' : k' = k
    · rw [if_pos hk', if_pos hk']
    · rw [if_neg hk', if_neg hk', habs]
  · intro k'
    rw [hadjabs, habs]

end Klox

namespace Klox

/-! ## Stack peek helpers -/

theorem peekV_concat_zero (l : List Value) (v : Value) : peekV (l ++ [v]) 0 = v := by
  unfold peekV
  have hlen : (l ++ [v]).length - 1 - 0 = l.length := by simp
  rw [hlen, List.getD_eq_getElem?_getD, List.getElem?_append_right (by omega)]
  simp

theorem peekV_concat_one (l : List Value) (v w : Value) :
    peekV (l ++ [v, w]) 1 = v := by
  unfold peekV
  have hl : l ++ [v, w] = (l ++ [v]) ++ [w] := by simp
  have hlen : (l ++ [v, w]).length - 1 - 1 = l.length := by simp
  rw [hlen, hl, List.getD_eq_getElem?_getD,
    List.getElem?_append_left (by simp),
    List.getElem?_append_right (by omega)]
  simp

theorem dropLast_concat_two (l : List Value) (v w : Value) :
    (l ++ [v, w]).dropLast.dropLast = l := by
  have hl : l ++ [v, w] = (l ++ [v]) ++ [w] := by simp
  rw [hl, List.dropLast_concat, List.dropLast_concat]

/-! ## C6: OP_SET_GLOBAL on an undefined name -/

/-- **C6.** `OP_SET_GLOBAL` on a name with no existing binding raises the
runtime error Undefined variable (with the name interpolated) and the run
returns INTERPRET_RUNTIME_ERROR; the provisionally inserted entry is
deleted again, so the globals mapping is unchanged by the failure.  When a
binding exists the value is updated and the operand value remains on the
stack (the statement exhibits the unchanged stack `rest ++ [v]`). -/
theorem C6_set_global_requires_binding (hashOf : Nat → Nat) (ops : List TOp)
    (name : Nat) (rest : List Value) (v : Value) :
    match runSpec ops (fun _ => none) name with
    | none => ∃ g',
        opSetGlobal hashOf ⟨runTOps hashOf ops initTable, rest ++ [v]⟩ name =
          .error (.undefinedVariable name, ⟨g', rest ++ [v]⟩) ∧
        ∀ k, tableGet hashOf g' k = runSpec ops (fun _ => none) k
    | some _ => ∃ g',
        opSetGlobal hashOf ⟨runTOps hashOf ops initTable, rest ++ [v]⟩ name =
          .ok ⟨g', rest ++ [v]⟩ ∧
        ∀ k, tableGet hashOf g' k =
          if k = name then some v else runSpec ops (fun _ => none) k := by
  obtain ⟨hinv, habs⟩ := runTOps_spec hashOf ops
  have hset := tableSet_spec hinv name v
  have hpeek : peekV (rest ++ [v]) 0 = v := peekV_concat_zero rest v
  rcases hm : runSpec ops (fun _ => none) name with _ | v0
  · -- undefined: tableSet reports a new key
    have hfst : (tableSet hashOf (runTOps hashOf ops initTable) name v).1 = true := by
      rw [hset.2.1, habs, hm]; rfl
    have hdel := tableDelete_spec hset.1 name
    refine ⟨(tableDelete hashOf
      (tableSet hashOf (runTOps hashOf ops initTable) name v).2 name).2, ?_, ?_⟩
    · unfold opSetGlobal
      show (if (tableSet hashOf (runTOps hashOf ops initTable) name
          (peekV (rest ++ [v]) 0)).1 = true then _ else _) = _
      rw [hpeek, if_pos hfst]
    · intro k
      rw [tableGet_eq_absT hdel.1, hdel.2.2.1 k]
      by_cases hk : k = name
      · rw [if_pos hk, hk, hm]
      · rw [if_neg hk, hset.2.2 k, if_neg hk, habs]
  · -- defined: the binding is updated in place
    have hfst : (tableSet hashOf (runTOps hashOf ops initTable) name v).1 = false := by
      rw [hset.2.1, habs, hm]; rfl
    refine ⟨(tableSet hashOf (runTOps hashOf ops initTable) name v).2, ?_, ?_⟩
    · unfold opSetGlobal
      show (if (tableSet hashOf (runTOps hashOf ops initTable) name
          (peekV (rest ++ [v]) 0)).1 = true then _ else _) = _
      rw [hpeek, hfst]
      rfl
    · intro k
      rw [tableGet_eq_absT hset.1, hset.2.2 k]
      by_cases hk : k = name
      · rw [if_pos hk, if_pos hk]
      · rw [if_neg hk, if_neg hk, habs]

end Klox

namespace Klox

/-! ## The content-based probe loop of tableFindString -/

theorem tableFindStringAux_step_empty {bytesOf : Nat → List Nat}
    {entries : List Entry} {cap fuel idx : Nat} {chars : List Nat} {hash : Nat}
    (hk : (slotE entries idx).key = none)
    (hv : (slotE entries idx).value = Value.nil) :
    tableFindStringAux bytesOf entries cap chars hash (fuel + 1) idx = none := by
  simp only [tableFindStringAux, hk, hv, if_pos]

theorem tableFindStringAux_step_tomb {bytesOf : Nat → List Nat}
    {entries : List Entry} {cap fuel idx : Nat} {chars : List Nat} {hash : Nat}
    (hk : (slotE entries idx).key = none)
    (hv : (slotE entries idx).value ≠ Value.nil) :
    tableFindStringAux bytesOf entries cap chars hash (fuel + 1) idx =
      tableFindStringAux bytesOf entries cap chars hash fuel
        ((idx + 1) &&& (cap - 1)) := by
  simp only [tableFindStringAux, hk, hv, if_neg, ite_false]

theorem tableFindStringAux_step_full {bytesOf : Nat → List Nat}
    {entries : List Entry} {cap fuel idx k : Nat} {chars : List Nat} {hash : Nat}
    (hk : (slotE entries idx).key = some k) :
    tableFindStringAux bytesOf entries cap chars hash (fuel + 1) idx =
      if (bytesOf k).length = chars.length ∧ hashString (bytesOf k) = hash ∧
          bytesOf k = chars then some k
      else tableFindStringAux bytesOf entries cap chars hash fuel
        ((idx + 1) &&& (cap - 1)) := by
  simp only [tableFindStringAux, hk]

/-- What a successful content search returns: an interned reference whose
bytes are the searched bytes. -/
theorem tableFindStringAux_shape {bytesOf : Nat → List Nat}
    {entries : List Entry} {cap : Nat} {chars : List Nat} {hash : Nat} :
    ∀ fuel idx id,
      tableFindStringAux bytesOf entries cap chars hash fuel idx = some id →
      (∃ e ∈ entries, e.key = some id) ∧ bytesOf id = chars := by
  intro fuel
  induction fuel with
  | zero => intro idx id h; simp [tableFindStringAux] at h
  | succ f ih =>
    intro idx id h
    rcases hk : (slotE entries idx).key with _ | k
    · by_cases hv : (slotE entries idx).value = Value.nil
      · rw [tableFindStringAux_step_empty hk hv] at h; cases h
      · rw [tableFindStringAux_step_tomb hk hv] at h
        exact ih _ _ h
    · rw [tableFindStringAux_step_full hk] at h
      by_cases hcond : (bytesOf k).length = chars.length ∧
          hashString (bytesOf k) = hash ∧ bytesOf k = chars
      · rw [if_pos hcond] at h
        cases h
        have hlt : idx < entries.length := by
          by_contra hge
          rw [slotE_oob (by omega)] at hk
          cases hk
        exact ⟨⟨slotE entries idx, slotE_mem hlt, hk⟩, hcond.2.2⟩
      · rw [if_neg hcond] at h
        exact ih _ _ h

/-- If a reference with the searched bytes is stored (and interned bytes
are unique), the content search finds it.  The probe path is the one of
`strHash`, since the query hash is the hash of the stored bytes. -/
theorem tableFindStringAux_present {bytesOf : Nat → List Nat}
    {entries : List Entry} {cap : Nat} (hc : cap = 0 ∨ ∃ n, cap = 2 ^ n)
    {chars : List Nat} {k ik : Nat} (hik : ik < cap)
    (hashOf : Nat → Nat) (hhash : ∀ id, hashOf id = hashString (bytesOf id))
    (hkey : (slotE entries (probe hashOf cap k ik)).key = some k)
    (hbytes : bytesOf k = chars)
    (hpref : ∀ i' < ik, ¬ emptyAtE entries (probe hashOf cap k i') ∧
      (slotE entries (probe hashOf cap k i')).key ≠ some k)
    (huniq : ∀ j k'', (slotE entries j).key = some k'' →
      bytesOf k'' = chars → k'' = k) :
    ∀ fuel m, m ≤ ik → ik - m < fuel →
      tableFindStringAux bytesOf entries cap chars (hashString chars) fuel
        (probe hashOf cap k m) = some k := by
  have hpos : 0 < cap := by omega
  intro fuel
  induction fuel with
  | zero => intro m _ h; omega
  | succ f ih =>
    intro m hm hfuel
    rcases Nat.lt_or_ge m ik with hlt | hge
    · obtain ⟨hne, hnk⟩ := hpref m hlt
      rcases hk : (slotE entries (probe hashOf cap k m)).key with _ | k''
      · have hv : (slotE entries (probe hashOf cap k m)).value ≠ Value.nil :=
          fun hv => hne ⟨hk, hv⟩
        rw [tableFindStringAux_step_tomb hk hv, mask_eq_mod hc hpos, probe_succ]
        exact ih (m + 1) (by omega) (by omega)
      · have hk''k : k'' ≠ k := fun h => hnk (h ▸ hk)
        have hbad : ¬ ((bytesOf k'').length = chars.length ∧
            hashString (bytesOf k'') = hashString chars ∧ bytesOf k'' = chars) :=
          fun hcond => hk''k (huniq _ _ hk hcond.2.2)
        rw [tableFindStringAux_step_full hk, if_neg hbad, mask_eq_mod hc hpos,
          probe_succ]
        exact ih (m + 1) (by omega) (by omega)
    · have hm' : m = ik := by omega
      subst hm'
      rw [tableFindStringAux_step_full hkey, if_pos
        ⟨by rw [hbytes], by rw [hbytes], hbytes⟩]

end Klox

namespace Klox

/-! ## Intern table reasoning -/

theorem internKeys_iff {st : InternSt} {id : Nat} :
    id ∈ internKeys st ↔ ∃ e ∈ st.itable.entries, e.key = some id := by
  unfold internKeys
  rw [List.mem_filterMap]

theorem key_mem_iff_absT_ne_none {hashOf : Nat → Nat} {t : Table}
    (ht : TableInv hashOf t) (k : Nat) :
    (∃ e ∈ t.entries, e.key = some k) ↔ absT t k ≠ none := by
  constructor
  · rintro ⟨e, he, hke⟩
    obtain ⟨j, hjlen, hje⟩ := exists_slot_of_mem he
    have := @absT_some_of_slot _ _ ht.raw j k
      (by rw [← ht.raw.len_eq]; exact hjlen)
      (by rw [Table.slot, hje]; exact hke)
    rw [this]
    exact fun h => Option.noConfusion h
  · intro h
    rcases ha : absT t k with _ | v
    · exact absurd ha h
    · obtain ⟨j, hj, hk, _⟩ := exists_slot_of_absT_some ht.raw.len_eq ha
      exact ⟨t.slot j, slotE_mem (by rw [ht.raw.len_eq]; exact hj), hk⟩

theorem getD_append_lt {α : Type} (l l2 : List α) (d : α) (i : Nat)
    (h : i < l.length) : (l ++ l2).getD i d = l.getD i d := by
  rw [List.getD_eq_getElem?_getD, List.getD_eq_getElem?_getD,
    List.getElem?_append_left h]

theorem getD_append_self {α : Type} (l : List α) (x : α) (d : α) :
    (l ++ [x]).getD l.length d = x := by
  rw [List.getD_eq_getElem?_getD, List.getElem?_append_right (Nat.le_refl _)]
  simp

theorem tableInv_congr {hashOf hashOf' : Nat → Nat} {t : Table}
    (hagree : ∀ e ∈ t.entries, ∀ k, e.key = some k → hashOf k = hashOf' k)
    (ht : TableInv hashOf t) : TableInv hashOf' t := by
  refine ⟨⟨ht.raw.len_eq, ht.raw.cap_pow, ?_⟩, ht.load, ht.count_eq⟩
  intro j k hj hk
  have hkk : hashOf k = hashOf' k := by
    have hjlen : j < t.entries.length := by rw [ht.raw.len_eq]; exact hj
    exact hagree _ (slotE_mem hjlen) k hk
  have hprobe : ∀ i, probe hashOf' t.capacity k i = probe hashOf t.capacity k i := by
    intro i; unfold probe; rw [hkk]
  obtain ⟨i, hi, hji, hpref⟩ := ht.raw.probeInv j k hj hk
  refine ⟨i, hi, by rw [hprobe]; exact hji, ?_⟩
  intro i' hi'
  rw [hprobe]
  exact hpref i' hi'

/-- `tableFindString` finds an interned reference with the searched bytes. -/
theorem tableFindString_present {st : InternSt} (h : InternInv st) {id : Nat}
    {chars : List Nat} (hmem : ∃ e ∈ st.itable.entries, e.key = some id)
    (hbytes : st.bytesOf id = chars) :
    tableFindString st.bytesOf st.itable chars (hashString chars) = some id := by
  obtain ⟨e, he, hke⟩ := hmem
  obtain ⟨j, hjlen, hje⟩ := exists_slot_of_mem he
  have hj : j < st.itable.capacity := by rw [← h.tinv.raw.len_eq]; exact hjlen
  have hkj : (slotE st.itable.entries j).key = some id := by rw [hje]; exact hke
  have hfull : (!(slotE st.itable.entries j).isEmptySlot) = true := by
    cases hb : (slotE st.itable.entries j).isEmptySlot
    · rfl
    · exfalso
      have := (isEmptySlot_iff _).mp hb
      rw [this.1] at hkj
      cases hkj
  have hcnt : st.itable.count ≠ 0 := by
    have hpos : 0 < st.itable.entries.countP (fun e => !e.isEmptySlot) := by
      rw [List.countP_pos]
      exact ⟨slotE st.itable.entries j, slotE_mem hjlen, hfull⟩
    rw [h.tinv.count_eq]
    omega
  have hpos : 0 < st.itable.capacity := by omega
  obtain ⟨i, hi, hji, hpref⟩ := h.tinv.raw.probeInv j id hj hkj
  have huniq : ∀ j' k'', (slotE st.itable.entries j').key = some k'' →
      st.bytesOf k'' = chars → k'' = id := by
    intro j' k'' hk'' hb''
    rcases Nat.lt_or_ge j' st.itable.entries.length with hj' | hj'
    · exact h.uniq _ (slotE_mem hj') _ he k'' id hk'' hke (by rw [hb'', hbytes])
    · rw [slotE_oob hj'] at hk''
      cases hk''
  unfold tableFindString
  rw [if_neg hcnt, mask_eq_mod h.tinv.raw.cap_pow hpos]
  have hstart : hashString chars % st.itable.capacity =
      probe st.strHash st.itable.capacity id 0 := by
    rw [probe_zero]
    show hashString chars % _ = hashString (st.bytesOf id) % _
    rw [hbytes]
  rw [hstart]
  subst hji
  exact tableFindStringAux_present h.tinv.raw.cap_pow hi st.strHash
    (fun _ => rfl) hkj hbytes hpref huniq st.itable.capacity 0 (Nat.zero_le _)
    (by omega)

end Klox

namespace Klox

theorem tableFindString_shape {bytesOf : Nat → List Nat} {t : Table}
    {chars : List Nat} {hash id : Nat}
    (h : tableFindString bytesOf t chars hash = some id) :
    (∃ e ∈ t.entries, e.key = some id) ∧ bytesOf id = chars := by
  unfold tableFindString at h
  by_cases hc : t.count = 0
  · rw [if_pos hc] at h; cases h
  · rw [if_neg hc] at h
    exact tableFindStringAux_shape _ _ _ h

/-- The full behaviour of `copyString`: the invariant is preserved, the
returned reference is interned with exactly the requested bytes, previously
interned references survive unchanged, and a reference that already has the
requested bytes is returned itself. -/
theorem copyString_spec {st : InternSt} (h : InternInv st) (chars : List Nat) :
    InternInv (copyString st chars).2 ∧
    (copyString st chars).2.bytesOf (copyString st chars).1 = chars ∧
    (copyString st chars).1 ∈ internKeys (copyString st chars).2 ∧
    (∀ id, id ∈ internKeys st → id ∈ internKeys (copyString st chars).2 ∧
      (copyString st chars).2.bytesOf id = st.bytesOf id) ∧
    (∀ id, id ∈ internKeys st → st.bytesOf id = chars →
      (copyString st chars).1 = id) := by
  rcases hfind : tableFindString st.bytesOf st.itable chars (hashString chars)
    with _ | interned
  · -- miss: allocate a fresh object and intern it
    have hres1 : (copyString st chars).1 = st.strs.length := by
      unfold copyString; rw [hfind]; rfl
    have hres2 : (copyString st chars).2 = ⟨st.strs ++ [chars],
        (tableSet (InternSt.mk (st.strs ++ [chars]) st.itable).strHash
          st.itable st.strs.length Value.nil).2⟩ := by
      unfold copyString; rw [hfind]; rfl
    have hagree : ∀ e ∈ st.itable.entries, ∀ k, e.key = some k →
        st.strHash k = (InternSt.mk (st.strs ++ [chars]) st.itable).strHash k := by
      intro e he k hk
      have hklt := h.keys_lt e he k hk
      show hashString (st.strs.getD k []) =
        hashString ((st.strs ++ [chars]).getD k [])
      rw [getD_append_lt _ _ _ _ hklt]
    have htinv2a : TableInv
        (InternSt.mk (st.strs ++ [chars]) st.itable).strHash st.itable :=
      tableInv_congr hagree h.tinv
    have habsid : absT st.itable st.strs.length = none := by
      rw [absT_eq_none_iff]
      intro e he hk
      exact absurd (h.keys_lt e he _ hk) (by omega)
    have hset := tableSet_spec htinv2a st.strs.length Value.nil
    have habs2 : ∀ k, absT (tableSet
        (InternSt.mk (st.strs ++ [chars]) st.itable).strHash st.itable
        st.strs.length Value.nil).2 k =
        if k = st.strs.length then some Value.nil else absT st.itable k :=
      hset.2.2
    have hkeys2 : ∀ k, (∃ e ∈ (tableSet
        (InternSt.mk (st.strs ++ [chars]) st.itable).strHash st.itable
        st.strs.length Value.nil).2.entries, e.key = some k) ↔
        (k = st.strs.length ∨ ∃ e ∈ st.itable.entries, e.key = some k) := by
      intro k
      rw [key_mem_iff_absT_ne_none hset.1, habs2 k]
      by_cases hk : k = st.strs.length
      · rw [if_pos hk]
        simp [hk]
      · rw [if_neg hk]
        rw [key_mem_iff_absT_ne_none h.tinv]
        simp [hk]
    have hnochars : ∀ k, (∃ e ∈ st.itable.entries, e.key = some k) →
        st.bytesOf k ≠ chars := by
      intro k hmem hbytes
      have := tableFindString_present h hmem hbytes
      rw [hfind] at this
      cases this
    rw [hres1, hres2]
    refine ⟨⟨?_, ?_, ?_⟩, ?_, ?_, ?_, ?_⟩
    · -- table invariant under the new hashes
      exact hset.1
    · -- keys reference allocated objects
      intro e he k hk
      show k < (st.strs ++ [chars]).length
      rcases (hkeys2 k).mp ⟨e, he, hk⟩ with rfl | hold
      · simp
      · obtain ⟨e0, he0, hk0⟩ := hold
        have := h.keys_lt e0 he0 k hk0
        simp
        omega
    · -- uniqueness of bytes
      intro e1 he1 e2 he2 k1 k2 hk1 hk2 hb
      have hm1 := (hkeys2 k1).mp ⟨e1, he1, hk1⟩
      have hm2 := (hkeys2 k2).mp ⟨e2, he2, hk2⟩
      have hb' : (st.strs ++ [chars]).getD k1 [] =
          (st.strs ++ [chars]).getD k2 [] := hb
      have hby : ∀ k0, (∃ e ∈ st.itable.entries, e.key = some k0) →
          (st.strs ++ [chars]).getD k0 [] = st.strs.getD k0 [] := by
        intro k0 hmem
        obtain ⟨e0, he0, hk0⟩ := hmem
        exact getD_append_lt _ _ _ _ (h.keys_lt e0 he0 k0 hk0)
      have hbid : (st.strs ++ [chars]).getD st.strs.length [] = chars :=
        getD_append_self _ _ _
      rcases hm1 with rfl | hold1
      · rcases hm2 with rfl | hold2
        · rfl
        · exfalso
          rw [hbid, hby k2 hold2] at hb'
          exact hnochars k2 hold2 hb'.symm
      · rcases hm2 with rfl | hold2
        · exfalso
          rw [hbid, hby k1 hold1] at hb'
          exact hnochars k1 hold1 hb'
        · refine h.uniq _ hold1.choose_spec.1 _ hold2.choose_spec.1 k1 k2
            hold1.choose_spec.2 hold2.choose_spec.2 ?_
          show st.strs.getD k1 [] = st.strs.getD k2 []
          rw [← hby k1 hold1, ← hby k2 hold2]
          exact hb'
    · -- the returned reference has the requested bytes
      show (st.strs ++ [chars]).getD st.strs.length [] = chars
      exact getD_append_self _ _ _
    · -- the returned reference is interned
      rw [internKeys_iff]
      exact (hkeys2 st.strs.length).mpr (Or.inl rfl)
    · -- previously interned references survive with their bytes
      intro id hid
      have hmem := internKeys_iff.mp hid
      obtain ⟨e0, he0, hk0⟩ := hmem
      have hidlt := h.keys_lt e0 he0 id hk0
      refine ⟨?_, ?_⟩
      · rw [internKeys_iff]
        exact (hkeys2 id).mpr (Or.inr ⟨e0, he0, hk0⟩)
      · show (st.strs ++ [chars]).getD id [] = st.strs.getD id []
        exact getD_append_lt _ _ _ _ hidlt
    · -- an existing reference with these bytes would have been found
      intro id hid hbytes
      exact absurd hbytes (hnochars id (internKeys_iff.mp hid))
  · -- hit: the interned reference is returned, nothing changes
    obtain ⟨hmem, hbytes⟩ := tableFindString_shape hfind
    have hres : copyString st chars = (interned, st) := by
      unfold copyString; rw [hfind]
    rw [hres]
    refine ⟨h, hbytes, internKeys_iff.mpr hmem, fun id hid => ⟨hid, rfl⟩, ?_⟩
    intro id hid hbid
    have := tableFindString_present h (internKeys_iff.mp hid) hbid
    rw [hfind] at this
    cases this
    rfl

/-- `takeString` behaves exactly like `copyString` in the model (the C
difference is only buffer ownership). -/
theorem takeString_eq_copyString : @takeString = @copyString := rfl

end Klox

namespace Klox

theorem internInv_init : InternInv initIntern := by
  refine ⟨tableInv_initTable _, ?_, ?_⟩
  · intro e he
    simp [initIntern, initTable] at he
  · intro e1 he1
    simp [initIntern, initTable] at he1

theorem runIntern_spec {st : InternSt} (h : InternInv st) (ops : List InternOp) :
    InternInv (runIntern st ops) ∧
    ∀ id, id ∈ internKeys st → id ∈ internKeys (runIntern st ops) ∧
      (runIntern st ops).bytesOf id = st.bytesOf id := by
  induction ops generalizing st with
  | nil => exact ⟨h, fun id hid => ⟨hid, rfl⟩⟩
  | cons op rest ih =>
    cases op with
    | copyOp chars =>
      have hc := copyString_spec h chars
      have hrest := ih hc.1
      refine ⟨hrest.1, fun id hid => ?_⟩
      have h1 := hc.2.2.2.1 id hid
      have h2 := hrest.2 id h1.1
      exact ⟨h2.1, by rw [show runIntern st (InternOp.copyOp chars :: rest) =
        runIntern (copyString st chars).2 rest from rfl] at *; rw [h2.2, h1.2]⟩
    | takeOp chars =>
      have heq : takeString st chars = copyString st chars := by
        rw [takeString_eq_copyString]
      have hc := copyString_spec h chars
      have hstep : runIntern st (InternOp.takeOp chars :: rest) =
          runIntern (copyString st chars).2 rest := by
        show runIntern (takeString st chars).2 rest = _
        rw [heq]
      rw [hstep]
      have hrest := ih hc.1
      refine ⟨hrest.1, fun id hid => ?_⟩
      have h1 := hc.2.2.2.1 id hid
      have h2 := hrest.2 id h1.1
      exact ⟨h2.1, by rw [h2.2, h1.2]⟩

theorem copyString_hit {st : InternSt} {chars : List Nat} {id : Nat}
    (hfind : tableFindString st.bytesOf st.itable chars (hashString chars) =
      some id) : copyString st chars = (id, st) := by
  unfold copyString; rw [hfind]

/-- **C2.** Interning is idempotent and deduplicating: `copyString` (and
`takeString`) return a reference whose bytes are the requested bytes and
which is interned; calling either again with identical bytes, even after
any further interning activity, returns the very same reference, and the
second call on the same state changes nothing; distinct interned
references always have distinct bytes, so string equality reduces to
reference equality. -/
theorem C2_intern_uniqueness (ops : List InternOp) (chars : List Nat) :
    (copyString (runIntern initIntern ops) chars).2.bytesOf
      (copyString (runIntern initIntern ops) chars).1 = chars ∧
    (copyString (runIntern initIntern ops) chars).1 ∈
      internKeys (copyString (runIntern initIntern ops) chars).2 ∧
    copyString (copyString (runIntern initIntern ops) chars).2 chars =
      ((copyString (runIntern initIntern ops) chars).1,
       (copyString (runIntern initIntern ops) chars).2) ∧
    (∀ more, (copyString (runIntern
        (copyString (runIntern initIntern ops) chars).2 more) chars).1 =
      (copyString (runIntern initIntern ops) chars).1) ∧
    (∀ more, (takeString (runIntern
        (copyString (runIntern initIntern ops) chars).2 more) chars).1 =
      (copyString (runIntern initIntern ops) chars).1) ∧
    (∀ k1 ∈ internKeys (runIntern initIntern ops),
     ∀ k2 ∈ internKeys (runIntern initIntern ops),
      (runIntern initIntern ops).bytesOf k1 =
        (runIntern initIntern ops).bytesOf k2 → k1 = k2) := by
  have h := (runIntern_spec internInv_init ops).1
  have hc := copyString_spec h chars
  have hbytes := hc.2.1
  have hmem := hc.2.2.1
  have hinv1 := hc.1
  refine ⟨hbytes, hmem, ?_, ?_, ?_, ?_⟩
  · -- second call on the same state: a pure hit
    exact copyString_hit
      (tableFindString_present hinv1 (internKeys_iff.mp hmem) hbytes)
  · intro more
    have hmono := runIntern_spec hinv1 more
    have h1 := hmono.2 _ hmem
    exact copyString_spec hmono.1 chars |>.2.2.2.2 _ h1.1 (by rw [h1.2, hbytes])
  · intro more
    have hmono := runIntern_spec hinv1 more
    have h1 := hmono.2 _ hmem
    rw [show @takeString = @copyString from takeString_eq_copyString]
    exact copyString_spec hmono.1 chars |>.2.2.2.2 _ h1.1 (by rw [h1.2, hbytes])
  · intro k1 hk1 k2 hk2 hb
    obtain ⟨e1, he1, hke1⟩ := internKeys_iff.mp hk1
    obtain ⟨e2, he2, hke2⟩ := internKeys_iff.mp hk2
    exact h.uniq e1 he1 e2 he2 k1 k2 hke1 hke2 hb

end Klox

namespace Klox

/-! ## C1: OP_ADD -/

/-- **C1.** `OP_ADD`: if both operands are strings they are popped and the
interned string whose bytes are `a.bytes ++ b.bytes` is pushed
(`concatenate` via `takeString`); if both operands are numbers they are
popped and their sum is pushed (IEEE-754 doubles are abstracted by the
`Int` carrier of `Value.number`, with `+` standing for double addition);
for every other pair the VM raises "Operands must be two numbers or two
strings." and `run` returns INTERPRET_RUNTIME_ERROR. -/
theorem C1_op_add_dispatch (iops : List InternOp) (rest : List Value)
    (v1 v0 : Value) :
    if isStringV v0 && isStringV v1 then
      ∃ rid st2,
        opAdd ⟨rest ++ [v1, v0], runIntern initIntern iops⟩ =
          .ok ⟨rest ++ [Value.str rid], st2⟩ ∧
        st2.bytesOf rid =
          (runIntern initIntern iops).bytesOf (asStrId v1) ++
          (runIntern initIntern iops).bytesOf (asStrId v0) ∧
        rid ∈ internKeys st2
    else if isNumberV v0 && isNumberV v1 then
      opAdd ⟨rest ++ [v1, v0], runIntern initIntern iops⟩ =
        .ok ⟨rest ++ [Value.number (asNumber v1 + asNumber v0)],
          runIntern initIntern iops⟩
    else
      opAdd ⟨rest ++ [v1, v0], runIntern initIntern iops⟩ =
        .error .operandsMustBeTwoNumbersOrTwoStrings ∧
      RTErr.message .operandsMustBeTwoNumbersOrTwoStrings =
        "Operands must be two numbers or two strings." := by
  have hpeek0 : peekV (rest ++ [v1, v0]) 0 = v0 := by
    rw [show rest ++ [v1, v0] = (rest ++ [v1]) ++ [v0] by simp]
    exact peekV_concat_zero _ _
  have hpeek1 : peekV (rest ++ [v1, v0]) 1 = v1 := peekV_concat_one _ _ _
  have hinv := (runIntern_spec internInv_init iops).1
  by_cases hss : isStringV v0 && isStringV v1
  · rw [if_pos hss]
    have hconc : concatenate ⟨rest ++ [v1, v0], runIntern initIntern iops⟩ =
        ⟨rest ++ [Value.str (takeString (runIntern initIntern iops)
            ((runIntern initIntern iops).bytesOf (asStrId v1) ++
             (runIntern initIntern iops).bytesOf (asStrId v0))).1],
          (takeString (runIntern initIntern iops)
            ((runIntern initIntern iops).bytesOf (asStrId v1) ++
             (runIntern initIntern iops).bytesOf (asStrId v0))).2⟩ := by
      unfold concatenate
      simp only [hpeek0, hpeek1, dropLast_concat_two]
    have hstep : opAdd ⟨rest ++ [v1, v0], runIntern initIntern iops⟩ =
        .ok (concatenate ⟨rest ++ [v1, v0], runIntern initIntern iops⟩) := by
      unfold opAdd
      simp only [hpeek0, hpeek1, hss, if_pos]
    have htake := copyString_spec hinv
      ((runIntern initIntern iops).bytesOf (asStrId v1) ++
       (runIntern initIntern iops).bytesOf (asStrId v0))
    rw [show @takeString = @copyString from takeString_eq_copyString] at hconc
    exact ⟨_, _, by rw [hstep, hconc], htake.2.1, htake.2.2.1⟩
  · rw [if_neg hss]
    by_cases hnn : isNumberV v0 && isNumberV v1
    · rw [if_pos hnn]
      unfold opAdd
      simp only [hpeek0, hpeek1, hss, hnn, if_pos, Bool.false_eq_true,
        if_false, dropLast_concat_two]
    · rw [if_neg hnn]
      constructor
      · unfold opAdd
        simp only [hpeek0, hpeek1, hss, hnn, Bool.false_eq_true, if_false,
          dropLast_concat_two]
      · rfl

end Klox

namespace Klox

/-! ## C5: the open-upvalue list -/

theorem captureUpvalue_cons_lt {newId s : Nat} {u : OpenUpv}
    {rest : List OpenUpv} (h : s < u.loc) :
    captureUpvalue newId s (u :: rest) =
      ((captureUpvalue newId s rest).1,
        u :: (captureUpvalue newId s rest).2) := by
  simp only [captureUpvalue, if_pos h]

theorem captureUpvalue_cons_eq {newId s : Nat} {u : OpenUpv}
    {rest : List OpenUpv} (h : u.loc = s) :
    captureUpvalue newId s (u :: rest) = (u.uid, u :: rest) := by
  have h1 : ¬ (s < u.loc) := by omega
  simp only [captureUpvalue, if_neg h1, if_pos h]

theorem captureUpvalue_cons_gt {newId s : Nat} {u : OpenUpv}
    {rest : List OpenUpv} (h : u.loc < s) :
    captureUpvalue newId s (u :: rest) = (newId, ⟨newId, s⟩ :: u :: rest) := by
  have h1 : ¬ (s < u.loc) := by omega
  have h2 : ¬ (u.loc = s) := by omega
  simp only [captureUpvalue, if_neg h1, if_neg h2]

theorem closeUpvalues_cons_ge {stack : List Value} {last : Nat} {u : OpenUpv}
    {rest : List OpenUpv} (h : last ≤ u.loc) :
    closeUpvalues stack last (u :: rest) =
      ((closeUpvalues stack last rest).1,
        (u.uid, stack.getD u.loc Value.nil) ::
          (closeUpvalues stack last rest).2) := by
  simp only [closeUpvalues, if_pos h]

theorem closeUpvalues_cons_lt {stack : List Value} {last : Nat} {u : OpenUpv}
    {rest : List OpenUpv} (h : u.loc < last) :
    closeUpvalues stack last (u :: rest) = (u :: rest, []) := by
  have h1 : ¬ (last ≤ u.loc) := by omega
  simp only [closeUpvalues, if_neg h1]

theorem captureUpvalue_mem (newId s : Nat) :
    ∀ l u', u' ∈ (captureUpvalue newId s l).2 →
      u' ∈ l ∨ u' = OpenUpv.mk newId s := by
  intro l
  induction l with
  | nil =>
    intro u' h
    simp only [captureUpvalue, List.mem_singleton] at h
    exact Or.inr h
  | cons u rest ih =>
    intro u' h
    rcases Nat.lt_trichotomy s u.loc with h1 | h1 | h1
    · rw [captureUpvalue_cons_lt h1] at h
      rcases List.mem_cons.mp h with rfl | h2
      · exact Or.inl (List.mem_cons_self _ _)
      · rcases ih u' h2 with h3 | h3
        · exact Or.inl (List.mem_cons_of_mem _ h3)
        · exact Or.inr h3
    · rw [captureUpvalue_cons_eq h1.symm] at h
      exact Or.inl h
    · rw [captureUpvalue_cons_gt h1] at h
      rcases List.mem_cons.mp h with rfl | h2
      · exact Or.inr rfl
      · exact Or.inl h2

theorem captureUpvalue_sorted (newId s : Nat) :
    ∀ l, l.Pairwise (fun a b => b.loc < a.loc) →
      (captureUpvalue newId s l).2.Pairwise (fun a b => b.loc < a.loc) := by
  intro l
  induction l with
  | nil => intro _; simp [captureUpvalue]
  | cons u rest ih =>
    intro hs
    obtain ⟨hhead, hrest⟩ := List.pairwise_cons.mp hs
    rcases Nat.lt_trichotomy s u.loc with h1 | h1 | h1
    · rw [captureUpvalue_cons_lt h1]
      rw [List.pairwise_cons]
      refine ⟨?_, ih hrest⟩
      intro u' hu'
      rcases captureUpvalue_mem newId s rest u' hu' with h2 | rfl
      · exact hhead u' h2
      · exact h1
    · rw [captureUpvalue_cons_eq h1.symm]
      exact hs
    · rw [captureUpvalue_cons_gt h1]
      rw [List.pairwise_cons]
      refine ⟨?_, hs⟩
      intro u' hu'
      rcases List.mem_cons.mp hu' with rfl | h2
      · exact h1
      · have := hhead u' h2
        show u'.loc < s
        omega

theorem captureUpvalue_reuse (newId s : Nat) :
    ∀ l, l.Pairwise (fun a b => b.loc < a.loc) →
      (∃ u ∈ l, u.loc = s) →
      (captureUpvalue newId s l).2 = l ∧
      ∃ u ∈ l, (captureUpvalue newId s l).1 = u.uid ∧ u.loc = s := by
  intro l
  induction l with
  | nil => rintro _ ⟨u, hu, _⟩; simp at hu
  | cons u rest ih =>
    rintro hs ⟨w, hw, hwloc⟩
    obtain ⟨hhead, hrest⟩ := List.pairwise_cons.mp hs
    rcases Nat.lt_trichotomy s u.loc with h1 | h1 | h1
    · rw [captureUpvalue_cons_lt h1]
      have hwrest : w ∈ rest := by
        rcases List.mem_cons.mp hw with rfl | h2
        · omega
        · exact h2
      obtain ⟨heq, u0, hu0, huid, hloc⟩ := ih hrest ⟨w, hwrest, hwloc⟩
      exact ⟨by rw [heq], u0, List.mem_cons_of_mem _ hu0, huid, hloc⟩
    · rw [captureUpvalue_cons_eq h1.symm]
      exact ⟨rfl, u, List.mem_cons_self _ _, rfl, h1.symm⟩
    · exfalso
      rcases List.mem_cons.mp hw with rfl | h2
      · omega
      · have := hhead w h2
        omega

theorem closeUpvalues_filter (stack : List Value) (last : Nat) :
    ∀ l, l.Pairwise (fun a b => b.loc < a.loc) →
      (closeUpvalues stack last l).1 =
        l.filter (fun u => decide (u.loc < last)) ∧
      (closeUpvalues stack last l).2 =
        (l.filter (fun u => decide (last ≤ u.loc))).map
          (fun u => (u.uid, stack.getD u.loc Value.nil)) := by
  intro l
  induction l with
  | nil => intro _; exact ⟨rfl, rfl⟩
  | cons u rest ih =>
    intro hs
    obtain ⟨hhead, hrest⟩ := List.pairwise_cons.mp hs
    rcases Nat.lt_or_ge u.loc last with h1 | h1
    · rw [closeUpvalues_cons_lt h1]
      constructor
      · rw [List.filter_cons_of_pos (by simpa using h1)]
        congr 1
        rw [List.filter_eq_self.mpr]
        intro u' hu'
        have := hhead u' hu'
        simp only [decide_eq_true_eq]
        omega
      · rw [List.filter_cons_of_neg (by simp; omega)]
        rw [List.filter_eq_nil_iff.mpr]
        · rfl
        · intro u' hu'
          have := hhead u' hu'
          simp only [decide_eq_true_eq]
          omega
    · rw [closeUpvalues_cons_ge h1]
      obtain ⟨ih1, ih2⟩ := ih hrest
      constructor
      · rw [List.filter_cons_of_neg (by simp; omega), ih1]
      · rw [List.filter_cons_of_pos (by simpa using h1), List.map_cons, ih2]

/-- **C5.** The open-upvalue list invariant: stack slots strictly decrease
along the list and no two open upvalues watch the same slot.
`captureUpvalue` preserves it, reusing the existing upvalue when one
already watches the requested slot (returning its reference and leaving
the list unchanged) and otherwise splicing the fresh upvalue in at its
sorted position; `closeUpvalues(last)` closes and unlinks exactly the
upvalues whose slot is at or above `last`, preserving the invariant. -/
theorem C5_upvalue_list_invariant (l : List OpenUpv) (newId s last : Nat)
    (stack : List Value)
    (hs : l.Pairwise (fun a b => b.loc < a.loc)) :
    (captureUpvalue newId s l).2.Pairwise (fun a b => b.loc < a.loc) ∧
    ((captureUpvalue newId s l).2.map OpenUpv.loc).Nodup ∧
    ((∃ u ∈ l, u.loc = s) →
      (captureUpvalue newId s l).2 = l ∧
      ∃ u ∈ l, (captureUpvalue newId s l).1 = u.uid ∧ u.loc = s) ∧
    (closeUpvalues stack last l).1 =
      l.filter (fun u => decide (u.loc < last)) ∧
    (closeUpvalues stack last l).2 =
      (l.filter (fun u => decide (last ≤ u.loc))).map
        (fun u => (u.uid, stack.getD u.loc Value.nil)) ∧
    (closeUpvalues stack last l).1.Pairwise (fun a b => b.loc < a.loc) := by
  have hsorted := captureUpvalue_sorted newId s l hs
  have hclose := closeUpvalues_filter stack last l hs
  refine ⟨hsorted, ?_, captureUpvalue_reuse newId s l hs, hclose.1, hclose.2, ?_⟩
  · have hp : (captureUpvalue newId s l).2.Pairwise
        (fun a b => OpenUpv.loc a ≠ OpenUpv.loc b) :=
      hsorted.imp (fun h => by omega)
    exact List.pairwise_map.mpr hp
  · rw [hclose.1]
    exact hs.filter _

end Klox

namespace Klox

/-- Witness for C5 at a concrete sorted open-upvalue list. -/
theorem C5_upvalue_list_invariant_witness :
    ([⟨0, 5⟩, ⟨1, 3⟩] : List OpenUpv).Pairwise (fun a b => b.loc < a.loc) ∧
    ((captureUpvalue 2 4 [⟨0, 5⟩, ⟨1, 3⟩]).2.Pairwise
        (fun a b => b.loc < a.loc) ∧
      ((captureUpvalue 2 4 [⟨0, 5⟩, ⟨1, 3⟩]).2.map OpenUpv.loc).Nodup ∧
      ((∃ u ∈ ([⟨0, 5⟩, ⟨1, 3⟩] : List OpenUpv), u.loc = 4) →
        (captureUpvalue 2 4 [⟨0, 5⟩, ⟨1, 3⟩]).2 = [⟨0, 5⟩, ⟨1, 3⟩] ∧
        ∃ u ∈ ([⟨0, 5⟩, ⟨1, 3⟩] : List OpenUpv),
          (captureUpvalue 2 4 [⟨0, 5⟩, ⟨1, 3⟩]).1 = u.uid ∧ u.loc = 4) ∧
      (closeUpvalues [Value.number 9, Value.number 8, Value.number 7,
          Value.number 6, Value.number 5, Value.number 4] 4
          [⟨0, 5⟩, ⟨1, 3⟩]).1 =
        ([⟨0, 5⟩, ⟨1, 3⟩] : List OpenUpv).filter
          (fun u => decide (u.loc < 4)) ∧
      (closeUpvalues [Value.number 9, Value.number 8, Value.number 7,
          Value.number 6, Value.number 5, Value.number 4] 4
          [⟨0, 5⟩, ⟨1, 3⟩]).2 =
        (([⟨0, 5⟩, ⟨1, 3⟩] : List OpenUpv).filter
          (fun u => decide (4 ≤ u.loc))).map
          (fun u => (u.uid, ([Value.number 9, Value.number 8, Value.number 7,
            Value.number 6, Value.number 5, Value.number 4] :
              List Value).getD u.loc Value.nil)) ∧
      (closeUpvalues [Value.number 9, Value.number 8, Value.number 7,
          Value.number 6, Value.number 5, Value.number 4] 4
          [⟨0, 5⟩, ⟨1, 3⟩]).1.Pairwise (fun a b => b.loc < a.loc)) :=
  ⟨by decide, C5_upvalue_list_invariant [⟨0, 5⟩, ⟨1, 3⟩] 2 4 4
    [Value.number 9, Value.number 8, Value.number 7, Value.number 6,
      Value.number 5, Value.number 4] (by decide)⟩

end Klox

namespace Klox

/-! ## C4: OP_RETURN -/

/-- **C4.** `OP_RETURN`: the result is popped; every open upvalue whose
slot is at or above the returning frame base is closed (migrating the slot
value); the frame count is decremented.  If it reaches zero the script
placeholder is popped and interpretation halts with INTERPRET_OK; otherwise
the stack top is reset to the frame base, the result is pushed there, and
every stack slot strictly below the base is unchanged. -/
theorem C4_op_return (stk : List Value) (fs : List Frame) (f : Frame)
    (ou : List OpenUpv) (cu : List (Nat × Value))
    (hsort : ou.Pairwise (fun a b => b.loc < a.loc))
    (hbase : f.slots < stk.length) :
    (opReturn ⟨stk, fs ++ [f], ou, cu⟩ =
      if fs.length = 0 then
        RetRes.halt ⟨stk.dropLast.dropLast, fs,
          ou.filter (fun u => decide (u.loc < f.slots)),
          cu ++ (ou.filter (fun u => decide (f.slots ≤ u.loc))).map
            (fun u => (u.uid, stk.getD u.loc Value.nil))⟩
      else
        RetRes.next ⟨stk.take f.slots ++ [stk.getLast?.getD Value.nil], fs,
          ou.filter (fun u => decide (u.loc < f.slots)),
          cu ++ (ou.filter (fun u => decide (f.slots ≤ u.loc))).map
            (fun u => (u.uid, stk.getD u.loc Value.nil))⟩) ∧
    (∀ j, j < f.slots →
      (stk.take f.slots ++ [stk.getLast?.getD Value.nil]).getD j Value.nil =
        stk.getD j Value.nil) := by
  have hclose := closeUpvalues_filter stk f.slots ou hsort
  constructor
  · unfold opReturn
    simp only [List.getLast?_concat, List.dropLast_concat, Option.getD_some]
    rw [hclose.1, hclose.2]
  · intro j hj
    have hjlen : j < stk.length := by omega
    rw [List.getD_eq_getElem?_getD, List.getD_eq_getElem?_getD,
      List.getElem?_append_left (by rw [List.length_take]; omega),
      List.getElem?_take_of_lt hj]

end Klox

namespace Klox

/-- Witness for C4 at a concrete returning frame. -/
theorem C4_op_return_witness :
    ([⟨7, 3⟩, ⟨8, 1⟩] : List OpenUpv).Pairwise (fun a b => b.loc < a.loc) ∧
    (⟨9, 0, 2⟩ : Frame).slots <
      ([Value.number 1, Value.number 2, Value.number 3, Value.number 4] :
        List Value).length ∧
    ((opReturn ⟨[Value.number 1, Value.number 2, Value.number 3,
        Value.number 4], [⟨0, 0, 0⟩] ++ [⟨9, 0, 2⟩], [⟨7, 3⟩, ⟨8, 1⟩], []⟩ =
      if ([⟨0, 0, 0⟩] : List Frame).length = 0 then
        RetRes.halt ⟨([Value.number 1, Value.number 2, Value.number 3,
            Value.number 4] : List Value).dropLast.dropLast, [⟨0, 0, 0⟩],
          ([⟨7, 3⟩, ⟨8, 1⟩] : List OpenUpv).filter
            (fun u => decide (u.loc < (⟨9, 0, 2⟩ : Frame).slots)),
          [] ++ (([⟨7, 3⟩, ⟨8, 1⟩] : List OpenUpv).filter
            (fun u => decide ((⟨9, 0, 2⟩ : Frame).slots ≤ u.loc))).map
            (fun u => (u.uid, ([Value.number 1, Value.number 2,
              Value.number 3, Value.number 4] :
                List Value).getD u.loc Value.nil))⟩
      else
        RetRes.next ⟨([Value.number 1, Value.number 2, Value.number 3,
            Value.number 4] : List Value).take (⟨9, 0, 2⟩ : Frame).slots ++
          [([Value.number 1, Value.number 2, Value.number 3,
            Value.number 4] : List Value).getLast?.getD Value.nil],
          [⟨0, 0, 0⟩],
          ([⟨7, 3⟩, ⟨8, 1⟩] : List OpenUpv).filter
            (fun u => decide (u.loc < (⟨9, 0, 2⟩ : Frame).slots)),
          [] ++ (([⟨7, 3⟩, ⟨8, 1⟩] : List OpenUpv).filter
            (fun u => decide ((⟨9, 0, 2⟩ : Frame).slots ≤ u.loc))).map
            (fun u => (u.uid, ([Value.number 1, Value.number 2,
              Value.number 3, Value.number 4] :
                List Value).getD u.loc Value.nil))⟩) ∧
    (∀ j, j < (⟨9, 0, 2⟩ : Frame).slots →
      (([Value.number 1, Value.number 2, Value.number 3, Value.number 4] :
          List Value).take (⟨9, 0, 2⟩ : Frame).slots ++
        [([Value.number 1, Value.number 2, Value.number 3,
          Value.number 4] : List Value).getLast?.getD Value.nil]).getD j
          Value.nil =
        ([Value.number 1, Value.number 2, Value.number 3, Value.number 4] :
          List Value).getD j Value.nil)) :=
  ⟨by decide, by decide,
    C4_op_return [Value.number 1, Value.number 2, Value.number 3,
      Value.number 4] [⟨0, 0, 0⟩] ⟨9, 0, 2⟩ [⟨7, 3⟩, ⟨8, 1⟩] []
      (by decide) (by decide)⟩

end Klox

namespace Klox

/-! ## C7: call and stack overflow -/

/-- **C7.** After the arity check passes, `call` fails with the runtime
error "Stack overflow." exactly when the active frame count already equals
FRAMES_MAX = 64 (the top-level script occupies one of those frames); on
success a new frame is pushed with `slots = stackTop - argCount - 1`. -/
theorem C7_call_stack_overflow (st : CallSt) (closId argc : Nat)
    (harity : (st.closures.getD closId ⟨0⟩).arity = argc) :
    FRAMES_MAX = 64 ∧
    (call st closId argc = CallRes.err RTErr.stackOverflow st ↔
      st.frames.length = 64) ∧
    (st.frames.length ≠ 64 →
      call st closId argc = CallRes.ok { st with
        frames := st.frames ++ [⟨closId, 0, st.stack.length - argc - 1⟩] }) ∧
    RTErr.message RTErr.stackOverflow = "Stack overflow." := by
  have hnotne : ¬ (argc ≠ (st.closures.getD closId ⟨0⟩).arity) := by
    rw [harity]
    exact fun h => h rfl
  have hframes : FRAMES_MAX = 64 := rfl
  have hcall : call st closId argc =
      if st.frames.length = 64 then CallRes.err RTErr.stackOverflow st
      else CallRes.ok { st with
        frames := st.frames ++ [⟨closId, 0, st.stack.length - argc - 1⟩] } := by
    unfold call
    rw [if_neg hnotne, hframes]
  refine ⟨rfl, ?_, ?_, rfl⟩
  · rw [hcall]
    by_cases hf : st.frames.length = 64
    · rw [if_pos hf]
      exact iff_of_true rfl hf
    · rw [if_neg hf]
      constructor
      · intro h
        cases h
      · intro h
        exact absurd h hf
  · intro h
    rw [hcall, if_neg h]

/-- Witness for C7 at a concrete call. -/
theorem C7_call_stack_overflow_witness :
    ((CallSt.mk [Value.closureV 0, Value.number 1, Value.number 2]
        [⟨0, 0, 0⟩] [] [] [⟨2⟩]).closures.getD 0 ⟨0⟩).arity = 2 ∧
    (FRAMES_MAX = 64 ∧
    (call (CallSt.mk [Value.closureV 0, Value.number 1, Value.number 2]
        [⟨0, 0, 0⟩] [] [] [⟨2⟩]) 0 2 =
      CallRes.err RTErr.stackOverflow
        (CallSt.mk [Value.closureV 0, Value.number 1, Value.number 2]
          [⟨0, 0, 0⟩] [] [] [⟨2⟩]) ↔
      (CallSt.mk [Value.closureV 0, Value.number 1, Value.number 2]
        [⟨0, 0, 0⟩] [] [] [⟨2⟩]).frames.length = 64) ∧
    ((CallSt.mk [Value.closureV 0, Value.number 1, Value.number 2]
        [⟨0, 0, 0⟩] [] [] [⟨2⟩]).frames.length ≠ 64 →
      call (CallSt.mk [Value.closureV 0, Value.number 1, Value.number 2]
          [⟨0, 0, 0⟩] [] [] [⟨2⟩]) 0 2 =
        CallRes.ok { (CallSt.mk [Value.closureV 0, Value.number 1,
            Value.number 2] [⟨0, 0, 0⟩] [] [] [⟨2⟩]) with
          frames := (CallSt.mk [Value.closureV 0, Value.number 1,
            Value.number 2] [⟨0, 0, 0⟩] [] [] [⟨2⟩]).frames ++
            [⟨0, 0, (CallSt.mk [Value.closureV 0, Value.number 1,
              Value.number 2] [⟨0, 0, 0⟩] [] [] [⟨2⟩]).stack.length -
                2 - 1⟩] }) ∧
    RTErr.message RTErr.stackOverflow = "Stack overflow.") :=
  ⟨by decide,
    C7_call_stack_overflow (CallSt.mk [Value.closureV 0, Value.number 1,
      Value.number 2] [⟨0, 0, 0⟩] [] [] [⟨2⟩]) 0 2 (by decide)⟩

end Klox

namespace Klox

/-! ## C8: the local-variable limit -/

set_option maxRecDepth 4000

/-- **C8 (counterexample).** Declaring 256 locals in one function does NOT
compile: `initCompiler` reserves slot 0 (localCount starts at 1), so the
256th user declaration already finds `localCount = UINT8_COUNT` and
`addLocal` reports the compile error. -/
theorem C8_local_limit_counterexample :
    (addLocal^[256] initCompilerLocals).hadError = true := by
  decide

/-- **C8 (amended).** The locals array admits 256 entries with slot 0
reserved for the receiver, so `initCompiler` starts localCount at 1 and a
function accepts at most 255 user-declared locals: declaring 255 compiles
(ending with the array full at 256 entries), the 256th declaration is
rejected, and in general `addLocal` reports an error exactly when the entry
count has already reached `UINT8_COUNT = 256` before the new local is
added (and then does not add it). -/
theorem C8_local_limit :
    UINT8_COUNT = 256 ∧
    initCompilerLocals = (⟨1, false⟩ : CompLocals) ∧
    addLocal^[255] initCompilerLocals = (⟨256, false⟩ : CompLocals) ∧
    (addLocal^[256] initCompilerLocals).hadError = true ∧
    (∀ c : CompLocals,
      (addLocal c).hadError = (c.localCount == 256 || c.hadError) ∧
      (addLocal c).localCount =
        if c.localCount = 256 then c.localCount else c.localCount + 1) := by
  refine ⟨rfl, rfl, by decide, by decide, ?_⟩
  intro c
  by_cases h : c.localCount = 256
  · have h256 : c.localCount = UINT8_COUNT := h
    constructor
    · unfold addLocal
      rw [if_pos h256]
      simp [h]
    · unfold addLocal
      rw [if_pos h256, if_pos h]
  · have h256 : ¬ (c.localCount = UINT8_COUNT) := h
    constructor
    · unfold addLocal
      rw [if_neg h256]
      simp [h]
    · unfold addLocal
      rw [if_neg h256, if_neg h]

end Klox

namespace Klox

/-! ## C9: the OP_INHERIT superclass check -/

/-- **C9.** When the value beneath the subclass on the stack (peek(1)) is
not a Class, OP_INHERIT raises the runtime error "Superclass must be a
class." and returns the state unchanged — in particular every class method
table, including the subclass one, is untouched. -/
theorem C9_inherit_requires_class (hashOf : Nat → Nat) (st : CallSt)
    (hns : ∀ id, peekV st.stack 1 ≠ Value.klass id) :
    opInherit hashOf st =
      Except.error (RTErr.superclassMustBeAClass, st) ∧
    RTErr.message RTErr.superclassMustBeAClass =
      "Superclass must be a class." := by
  refine ⟨?_, rfl⟩
  unfold opInherit
  cases hv : peekV st.stack 1 <;>
    first
      | rfl
      | exact absurd hv (hns _)

/-- Witness for C9: inheriting from the number 3. -/
theorem C9_inherit_requires_class_witness :
    opInherit (fun k => k)
      ⟨[Value.number 3, Value.klass 0], [], [⟨0, initTable⟩], [], []⟩ =
      Except.error (RTErr.superclassMustBeAClass,
        ⟨[Value.number 3, Value.klass 0], [], [⟨0, initTable⟩], [], []⟩) ∧
    RTErr.message RTErr.superclassMustBeAClass =
      "Superclass must be a class." :=
  C9_inherit_requires_class (fun k => k)
    ⟨[Value.number 3, Value.klass 0], [], [⟨0, initTable⟩], [], []⟩
    (by
      intro id h
      have h2 : Value.number 3 = Value.klass id := h
      simp at h2)

end Klox

namespace Klox

/-! ## C3: calling a class value -/

/-- The zero-arity message exactly as `runtimeError` formats it. -/
theorem expectedArgs_zero_message (g : Nat) :
    RTErr.message (RTErr.expectedArgs 0 g) =
      "Expected 0 arguments but got " ++ toString g ++ "." := rfl

/-- **C3.** Calling a Class value with `argCount` arguments: the callee
stack slot (`stackTop - argCount - 1`) is overwritten with a fresh Instance
of that class, which is appended to the instance list.  If the class method
table binds "init" (`vm.initString`), that closure is called with the same
argument count; otherwise a nonzero argument count raises the runtime error
"Expected 0 arguments but got %d." and zero arguments succeed with the
instance in place as the call result.  Initializers compile to
`OP_GET_LOCAL 0; OP_RETURN` (emitReturn on typeInit), and executing that
pair returns the slot-0 value of the returning frame — the receiver, i.e.
the fresh instance — to the caller stack top, so the caller always ends up
with the instance. -/
theorem C3_class_call (hashOf : Nat → Nat) (initStr : Nat) (st : CallSt)
    (klassId argCount : Nat) (hstk : argCount < st.stack.length) :
    (∀ init,
      tableGet hashOf (st.classes.getD klassId ⟨0, initTable⟩).methods
          initStr = some init →
      callValueClass hashOf initStr st klassId argCount =
        call { st with
          instances := st.instances ++ [⟨klassId, initTable⟩],
          stack := st.stack.set (st.stack.length - argCount - 1)
            (Value.instanceV st.instances.length) } (asClosureId init)
          argCount) ∧
    (tableGet hashOf (st.classes.getD klassId ⟨0, initTable⟩).methods
        initStr = none →
      (argCount ≠ 0 →
        callValueClass hashOf initStr st klassId argCount =
          CallRes.err (RTErr.expectedArgs 0 argCount) { st with
            instances := st.instances ++ [⟨klassId, initTable⟩],
            stack := st.stack.set (st.stack.length - argCount - 1)
              (Value.instanceV st.instances.length) } ∧
        RTErr.message (RTErr.expectedArgs 0 argCount) =
          "Expected 0 arguments but got " ++ toString argCount ++ ".") ∧
      (argCount = 0 →
        callValueClass hashOf initStr st klassId argCount =
          CallRes.ok { st with
            instances := st.instances ++ [⟨klassId, initTable⟩],
            stack := st.stack.set (st.stack.length - argCount - 1)
              (Value.instanceV st.instances.length) })) ∧
    (st.stack.set (st.stack.length - argCount - 1)
        (Value.instanceV st.instances.length)).getD
      (st.stack.length - argCount - 1) Value.nil =
      Value.instanceV st.instances.length ∧
    (st.instances ++ ([⟨klassId, initTable⟩] : List InstObj)).getD
      st.instances.length (⟨0, initTable⟩ : InstObj) =
      (⟨klassId, initTable⟩ : InstObj) ∧
    emitReturn FunctionType.typeInit = [Instr.iGetLocal 0, Instr.iReturn] ∧
    (∀ rst : RunSt, rst.openUps = [] → 2 ≤ rst.frames.length →
      (rst.frames.getLast?.getD ⟨0, 0, 0⟩).slots < rst.stack.length →
      opReturn (opGetLocal rst 0) = RetRes.next
        ⟨rst.stack.take (rst.frames.getLast?.getD ⟨0, 0, 0⟩).slots ++
            [rst.stack.getD (rst.frames.getLast?.getD ⟨0, 0, 0⟩).slots
              Value.nil],
          rst.frames.dropLast, [], rst.closedUps⟩) := by
  have hbase : st.stack.length - argCount - 1 < st.stack.length := by omega
  have hcv : callValueClass hashOf initStr st klassId argCount =
      match tableGet hashOf (st.classes.getD klassId ⟨0, initTable⟩).methods
          initStr with
      | some init =>
        call { st with
          instances := st.instances ++ [⟨klassId, initTable⟩],
          stack := st.stack.set (st.stack.length - argCount - 1)
            (Value.instanceV st.instances.length) } (asClosureId init)
          argCount
      | none =>
        if argCount ≠ 0 then
          CallRes.err (RTErr.expectedArgs 0 argCount) { st with
            instances := st.instances ++ [⟨klassId, initTable⟩],
            stack := st.stack.set (st.stack.length - argCount - 1)
              (Value.instanceV st.instances.length) }
        else
          CallRes.ok { st with
            instances := st.instances ++ [⟨klassId, initTable⟩],
            stack := st.stack.set (st.stack.length - argCount - 1)
              (Value.instanceV st.instances.length) } := rfl
  refine ⟨?_, ?_, ?_, ?_, rfl, ?_⟩
  · intro init hinit
    rw [hcv, hinit]
  · intro hnone
    constructor
    · intro hne
      refine ⟨?_, expectedArgs_zero_message argCount⟩
      rw [hcv, hnone, if_pos hne]
    · intro h0
      rw [hcv, hnone, if_neg (fun hh => hh h0)]
  · simp [List.getD_eq_getElem?_getD, List.getElem?_set_self hbase]
  · rw [List.getD_eq_getElem?_getD,
      List.getElem?_append_right (Nat.le_refl _), Nat.sub_self]
    rfl
  · intro rst hopen hfr hslots
    have hne : ¬ (rst.frames.dropLast.length = 0) := by
      rw [List.length_dropLast]
      omega
    show opReturn ⟨rst.stack ++ [rst.stack.getD
        ((rst.frames.getLast?.getD ⟨0, 0, 0⟩).slots + 0) Value.nil],
        rst.frames, rst.openUps, rst.closedUps⟩ = _
    rw [Nat.add_zero, hopen]
    unfold opReturn
    simp only [List.getLast?_concat, Option.getD_some, closeUpvalues,
      List.append_nil]
    rw [if_neg hne, List.take_append_of_le_length (Nat.le_of_lt hslots)]

/-- Witness for C3: calling a class with an empty method table and one
argument raises the zero-arity error, with the fresh instance already in
the callee slot. -/
theorem C3_class_call_witness :
    callValueClass (fun k => k) 5
      ⟨[Value.klass 0, Value.number 7], [], [⟨0, initTable⟩], [], []⟩ 0 1 =
      CallRes.err (RTErr.expectedArgs 0 1)
        ⟨[Value.instanceV 0, Value.number 7], [], [⟨0, initTable⟩],
          [⟨0, initTable⟩], []⟩ ∧
    RTErr.message (RTErr.expectedArgs 0 1) =
      "Expected 0 arguments but got 1." := by
  have h := C3_class_call (fun k => k) 5
    ⟨[Value.klass 0, Value.number 7], [], [⟨0, initTable⟩], [], []⟩ 0 1
    (by decide)
  have h2 := (h.2.1 (by rfl)).1 (by decide)
  refine ⟨h2.1, ?_⟩
  rw [h2.2]
  rfl

end Klox
